import Mathlib

/-
Verification of the Parameters library (parameters.h): an INI-style
key/value configuration store.  C++ strings are modelled as lists of
characters, the std::map<std::string,std::string> member as an
association list kept strictly sorted by lexicographic key order, and
the file as the list of its physical lines.  Exceptions are modelled by
Except, whose error value carries the thrown message together with the
state of the (in-place mutated) map at the moment of the throw.
-/

set_option maxHeartbeats 1000000

namespace Parameters

/-- Characters of a C++ std::string, modelled as a list of characters. -/
abbrev S : Type := List Char

/-- Lexicographic order on strings, as std::string operator< compares
(byte order coincides with code-point order for UTF-8). -/
def ltS : S → S → Bool
  | [], [] => false
  | [], _ :: _ => true
  | _ :: _, [] => false
  | a :: x, b :: y => if a < b then true else if a = b then ltS x y else false

/-- The std::map<std::string,std::string> member `parameters`:
an association list of (composite key, value) pairs, sorted by `ltS`. -/
abbrev Store : Type := List (S × S)

/-- `parameters.find(k)` followed by dereference. -/
def lookupStore : Store → S → Option S
  | [], _ => none
  | e :: rest, k => if k = e.1 then some e.2 else lookupStore rest k

/-- `parameters[k] = v`: ordered insert-or-assign, the effect of
std::map::operator[] followed by assignment. -/
def insertStore : Store → S → S → Store
  | [], k, v => [(k, v)]
  | e :: rest, k, v =>
    if ltS k e.1 then (k, v) :: e :: rest
    else if k = e.1 then (k, v) :: rest
    else e :: insertStore rest k v

/-- The std::map representation invariant: keys strictly ascending. -/
def sortedKeys : Store → Bool
  | [] => true
  | [_] => true
  | a :: b :: rest => ltS a.1 b.1 && sortedKeys (b :: rest)

/-- Parameters::trimWhitespace: remove leading and trailing ASCII
spaces (find_first_not_of(" ") / find_last_not_of(" ") and substr). -/
def trimWs (s : S) : S :=
  ((s.dropWhile (fun c => c = ' ')).reverse.dropWhile (fun c => c = ' ')).reverse

/-- Comment removal in load: `line.substr(0, line.find('#'))` when a
`#` is present, otherwise the whole line; in both cases the prefix
before the first `#`. -/
def stripComment (l : S) : S := l.takeWhile (fun c => !(c == '#'))

/-- One pass of load's reading loop body: strip the comment, trim. -/
def cleanLine (l : S) : S := trimWs (stripComment l)

/-- The `text` vector built by load's reading loop: each line cleaned,
kept only when non-empty. -/
def cleanAndFilter (ls : List S) : List S :=
  ls.filterMap (fun l => if cleanLine l = [] then none else some (cleanLine l))

/-- `*line.begin() == '[' && *line.rbegin() == ']'` (lines reaching this
test are non-empty, so head?/getLast? are faithful). -/
def isHeader (l : S) : Bool := (l.head? == some '[') && (l.getLast? == some ']')

/-- `trimWhitespace(line.substr(1, line.length()-2))`. -/
def headerName (l : S) : S := trimWs ((l.drop 1).take (l.length - 2))

/-- Index of the first occurrence of a character, `std::string::find`. -/
def idxOfC (c : Char) : S → Option Nat
  | [] => none
  | d :: rest => if d = c then some 0 else (idxOfC c rest).map (fun i => i + 1)

/-- The apostrophe character used by the exception messages. -/
def quoteC : Char := Char.ofNat 39

def litUnder : S := ("Under section ".toList) ++ [quoteC]

def litMalformed : S := [quoteC] ++ (", malformed expression line: ".toList) ++ [quoteC]

def litMissing : S := [quoteC] ++ (", missing key or value: ".toList) ++ [quoteC]

def litClose : S := [quoteC, Char.ofNat 10]

/-- Message of the ParametersFileError thrown when a line has no `=`. -/
def msgMalformed (sec l : S) : S := litUnder ++ sec ++ litMalformed ++ l ++ litClose

/-- Message of the ParametersFileError thrown when key or value is
empty after trimming (note: it shows the trimmed key and value). -/
def msgMissing (sec k v : S) : S := litUnder ++ sec ++ litMissing ++ k ++ ('=' :: v) ++ litClose

/-- Message of the KeyError thrown by get on a missing key. -/
def keyErrMsg (k : S) : S := ("Could not find key: ".toList) ++ [quoteC] ++ k ++ [quoteC]

/-- One iteration of load's dictionary-building loop on a cleaned line:
either a section header (updates the current section), or an assignment
`key = value` split at the first `=` with both parts trimmed; the
source's `!key.length() > 0 || !value.length() > 0` test is, by C++
operator precedence, exactly `key empty or value empty`.  Errors carry
the thrown message and the map at the moment of the throw. -/
def processLine (sec : S) (m : Store) (l : S) : Except (S × Store) (S × Store) :=
  if isHeader l then Except.ok (headerName l, m)
  else
    match idxOfC '=' l with
    | none => Except.error (msgMalformed sec l, m)
    | some i =>
      if trimWs (l.take i) = [] ∨ trimWs (l.drop (i + 1)) = [] then
        Except.error (msgMissing sec (trimWs (l.take i)) (trimWs (l.drop (i + 1))), m)
      else
        Except.ok (sec, insertStore m (sec ++ '/' :: trimWs (l.take i)) (trimWs (l.drop (i + 1))))

/-- load's dictionary-building loop over the cleaned lines. -/
def processLines (sec : S) (m : Store) : List S → Except (S × Store) (S × Store)
  | [] => Except.ok (sec, m)
  | l :: ls =>
    match processLine sec m l with
    | Except.error e => Except.error e
    | Except.ok sm => processLines sm.1 sm.2 ls

/-- Parameters::load on an already-opened file given as raw lines:
clean and filter every line, then build the dictionary starting from
the empty current section, merging into the existing map `m`. -/
def load (m : Store) (ls : List S) : Except (S × Store) (S × Store) :=
  processLines [] m (cleanAndFilter ls)

/-- The store produced by a successful load, none on a thrown error. -/
def loadedStore (r : Except (S × Store) (S × Store)) : Option Store :=
  match r with
  | Except.ok sm => some sm.2
  | Except.error _ => none

/-- The final current-section of a successful load, none on error. -/
def loadedSection (r : Except (S × Store) (S × Store)) : Option S :=
  match r with
  | Except.ok sm => some sm.1
  | Except.error _ => none

/-- save's decomposition of a composite key: `i = fullPathKey.find("/")`
(an int, -1 when absent), `substr(0, i)` and `substr(i+1)`; when no `/`
is present both substr calls return the whole string. -/
def splitSlash (k : S) : S × S :=
  match idxOfC '/' k with
  | some i => (k.take i, k.drop (i + 1))
  | none => (k, k)

def sectOf (k : S) : S := (splitSlash k).1

def keyOf (k : S) : S := (splitSlash k).2

/-- What save writes: a blank separator line, a `[section]` header line,
or a `key = value` line. -/
inductive Ev : Type
  | blank : Ev
  | header : S → Ev
  | kv : S → S → Ev
deriving DecidableEq

/-- save's loop over the sorted map with the `currentSectionName`
cursor: same section emits only `key = value`; a new section first
emits a blank line and a `[section]` header and updates the cursor. -/
def saveGo : S → Store → List Ev
  | _, [] => []
  | cursor, e :: rest =>
    if sectOf e.1 = cursor then Ev.kv (keyOf e.1) e.2 :: saveGo cursor rest
    else Ev.blank :: Ev.header (sectOf e.1) :: Ev.kv (keyOf e.1) e.2 :: saveGo (sectOf e.1) rest

/-- Parameters::save, as the sequence of written lines (structured);
the cursor starts as the default-constructed empty string. -/
def saveEvents (m : Store) : List Ev := saveGo [] m

/-- The text of one written line. -/
def renderEv : Ev → S
  | Ev.blank => []
  | Ev.header s => '[' :: (s ++ [']'])
  | Ev.kv k v => k ++ (' ' :: '=' :: ' ' :: v)

/-- The chunks save writes between newlines, in emission order; save
terminates each of them with a newline in the file (see saveText), so
these coincide with the physical lines of the file only when no
section, key or value itself contains a newline. -/
def saveLines (m : Store) : List S := (saveEvents m).map renderEv

/-- Parameters::save as the byte content of the output file: every
emitted piece (the blank separator, each `[section]` header, each
`key = value`) is written followed by a newline, exactly as the
`ofs << ... << "\n"` statements do. -/
def saveText (m : Store) : S :=
  (saveLines m).foldr (fun l acc => l ++ '\n' :: acc) []

/-- The physical lines the `while (!ifs.eof()) getline(ifs, line)` loop
of load reads from a file with the given byte content: the content is
split at every newline; a trailing newline makes the loop read one
final empty line before eof. -/
def splitLines : S → List S
  | [] => [[]]
  | c :: rest =>
    if c = '\n' then [] :: splitLines rest
    else
      match splitLines rest with
      | [] => [[c]]
      | l :: ls => (c :: l) :: ls

/-- The section names of the `[section]` header lines save emitted. -/
def headersOf (es : List Ev) : List S :=
  es.filterMap (fun e => match e with | Ev.header s => some s | _ => none)

/-- The section of each entry, in store order. -/
def sectsOf (m : Store) : List S := m.map (fun e => sectOf e.1)

/-- Occurrence count in a list of strings. -/
def countS (s : S) : List S → Nat
  | [] => 0
  | t :: r => (if t = s then 1 else 0) + countS s r

/-- The section names a cursor starting at `c` emits headers for:
adjacent runs equal to the cursor are skipped, a differing section is
emitted and becomes the cursor. -/
def collapse : S → List S → List S
  | _, [] => []
  | c, s :: rest => if s = c then collapse c rest else s :: collapse s rest

/-- Modelled from the claim's words for comparison with save: replay
the emitted lines, reading each `key = value` under the most recent
`[section]` header (no header yet = empty section), yielding the
composite entries in emission order. -/
def specReplayEntries : S → List Ev → Store
  | _, [] => []
  | cur, Ev.blank :: es => specReplayEntries cur es
  | _, Ev.header s :: es => specReplayEntries s es
  | cur, Ev.kv k v :: es => (cur ++ '/' :: k, v) :: specReplayEntries cur es

/-- The whitespace class used by stream extraction (C locale isspace). -/
def isStreamWs (c : Char) : Bool :=
  c == ' ' || c == '\t' || c == '\n' || c == Char.ofNat 11 || c == Char.ofNat 12 || c == '\r'

/-- `ss >> value` for a std::string output: skip leading whitespace,
then extract the maximal whitespace-free token; none when no character
could be extracted (failbit set, output parameter untouched). -/
def extractToken (s : S) : Option S :=
  if (s.dropWhile isStreamWs).takeWhile (fun c => !(isStreamWs c)) = [] then none
  else some ((s.dropWhile isStreamWs).takeWhile (fun c => !(isStreamWs c)))

/-- Parameters::get instantiated at T = std::string: look the key up,
throw KeyError when absent, otherwise stream-extract from the stored
text; a none result models a silent extraction failure that leaves the
output parameter unassigned. -/
def getString (m : Store) (k : S) : Except S (Option S) :=
  match lookupStore m k with
  | some v => Except.ok (extractToken v)
  | none => Except.error (keyErrMsg k)

def digitsPrefix (s : S) : S := s.takeWhile Char.isDigit

def digitsVal (s : S) : Nat :=
  s.foldl (fun n c => n * 10 + (c.toNat - ('0').toNat)) 0

def extractNat (s : S) : Option Nat :=
  if digitsPrefix s = [] then none else some (digitsVal (digitsPrefix s))

/-- `ss >> value` for an int output: skip whitespace, optional sign,
then decimal digits; none when no digit follows (failbit set, the
output parameter is zeroed and the failure is silent). -/
def extractInt (s : S) : Option Int :=
  match s.dropWhile isStreamWs with
  | '-' :: rest => (extractNat rest).map (fun n => -(n : Int))
  | '+' :: rest => (extractNat rest).map (fun n => (n : Int))
  | t => (extractNat t).map (fun n => (n : Int))

/-- Parameters::get instantiated at T = int. -/
def getInt (m : Store) (k : S) : Except S (Option Int) :=
  match lookupStore m k with
  | some v => Except.ok (extractInt v)
  | none => Except.error (keyErrMsg k)

/-- Parameters::set at T = std::string: `ss << value` writes the whole
string (insertion does not tokenize), so the stored text is the value
itself. -/
def setStr (m : Store) (k v : S) : Store := insertStore m k v

/-- Parameters::getSection: scan all entries, and for those whose
section part matches, `p.set(key, value)` on a fresh Parameters. -/
def getSection (m : Store) (sec : S) : Store :=
  m.foldl (fun p e => if sectOf e.1 == sec then setStr p (keyOf e.1) e.2 else p) []

/-- Parameters::getSectionMap: same scan, inserting into a fresh
std::map via operator[]. -/
def getSectionMap (m : Store) (sec : S) : Store :=
  m.foldl (fun r e => if sectOf e.1 == sec then insertStore r (keyOf e.1) e.2 else r) []

/-- No leading or trailing ASCII space. -/
def noLeadTrail (s : S) : Bool :=
  !(s.head? == some ' ') && !(s.getLast? == some ' ')

/-- A valid section or bare key name in the sense of claim C1:
non-empty, free of '/', '#' and '=', no leading or trailing space. -/
def validName (s : S) : Bool :=
  !(s.isEmpty) && !(s.contains '/') && !(s.contains '#') && !(s.contains '=') && noLeadTrail s

/-- A valid value in the sense of claim C1: non-empty, free of '#',
no leading or trailing space. -/
def validValue (v : S) : Bool :=
  !(v.isEmpty) && !(v.contains '#') && noLeadTrail v

/-- A valid store entry exactly as claim C1 words it. -/
def validEntryC1 (e : S × S) : Bool :=
  (e.1).contains '/' && validName (sectOf e.1) && validName (keyOf e.1) && validValue e.2

/-- No newline character, which would be re-split by load's getline. -/
def noNewline (s : S) : Bool := !(s.contains '\n')

/-- The amended validity: C1's conditions plus exactly the exclusions
the counterexamples force: no newline inside the section name, the bare
key or the value (the saved bytes would re-split into different lines),
and no bare key starting with '[' together with a value ending in ']'
(the saved assignment line would read back as a section header). -/
def validEntryA (e : S × S) : Bool :=
  validEntryC1 e &&
  noNewline (sectOf e.1) && noNewline (keyOf e.1) && noNewline e.2 &&
  !(((keyOf e.1).head? == some '[') && ((e.2).getLast? == some ']'))

/-- `a` is a prefix of `b` (character-wise). -/
def prefixB : S → S → Bool
  | [], _ => true
  | _ :: _, [] => false
  | a :: x, b :: y => a == b && prefixB x y

/-- `a` occurs contiguously inside `b`: the payload-carrying relation
for the thrown messages. -/
def infixB : S → S → Bool
  | a, [] => prefixB a []
  | a, b :: rest => prefixB a (b :: rest) || infixB a rest

/-- The merged view of two stores, second one winning. -/
def mergeLookup (mA mB : Store) (q : S) : Option S :=
  match lookupStore mB q with
  | some v => some v
  | none => lookupStore mA q

/-- Order on section names induced by the key order: equality, or the
strict key order after appending the '/' that follows the section in a
composite key. -/
def secLe (a b : S) : Bool := a == b || ltS (a ++ ['/']) (b ++ ['/'])

/-- Adjacent `secLe` chain over a list of section names. -/
def chainLe : List S → Bool
  | [] => true
  | [_] => true
  | a :: b :: r => secLe a b && chainLe (b :: r)

/- ### Order lemmas -/

theorem ltS_irrefl (a : S) : ltS a a = false := by
  induction a with
  | nil => rfl
  | cons c x ih => simp [ltS, ih]

theorem ltS_trans : ∀ {a b c : S}, ltS a b = true → ltS b c = true → ltS a c = true := by
  intro a
  induction a with
  | nil =>
    intro b c hab hbc
    cases b with
    | nil => simp [ltS] at hab
    | cons d y =>
      cases c with
      | nil => simp [ltS] at hbc
      | cons e z => simp [ltS]
  | cons p x ih =>
    intro b c hab hbc
    cases b with
    | nil => simp [ltS] at hab
    | cons q y =>
      cases c with
      | nil => simp [ltS] at hbc
      | cons r z =>
        simp only [ltS] at hab hbc ⊢
        by_cases hpq : p < q
        · by_cases hqr : q < r
          · simp [lt_trans hpq hqr]
          · rw [if_neg hqr] at hbc
            by_cases hqr2 : q = r
            · subst hqr2; simp [hpq]
            · rw [if_neg hqr2] at hbc
              exact absurd hbc (by simp)
        · rw [if_neg hpq] at hab
          by_cases hpq2 : p = q
          · subst hpq2
            rw [if_pos rfl] at hab
            by_cases hqr : p < r
            · simp [hqr]
            · rw [if_neg hqr] at hbc
              by_cases hqr2 : p = r
              · subst hqr2
                rw [if_pos rfl] at hbc
                simp [hqr, ih hab hbc]
              · rw [if_neg hqr2] at hbc
                exact absurd hbc (by simp)
          · rw [if_neg hpq2] at hab
            exact absurd hab (by simp)

theorem ltS_asymm {a b : S} (h : ltS a b = true) : ltS b a = false := by
  by_contra hc
  have hba : ltS b a = true := by
    cases hx : ltS b a
    · exact absurd hx hc
    · rfl
  have := ltS_trans h hba
  rw [ltS_irrefl] at this
  exact Bool.false_ne_true this

theorem ltS_ne {a b : S} (h : ltS a b = true) : a ≠ b := by
  intro he
  subst he
  rw [ltS_irrefl] at h
  exact Bool.false_ne_true h

theorem ltS_append_cancel (p : S) (a b : S) : ltS (p ++ a) (p ++ b) = ltS a b := by
  induction p with
  | nil => simp
  | cons c p ih => simp [ltS, ih]

/- ### sortedKeys lemmas -/

theorem sortedKeys_tail {e : S × S} {m : Store} (h : sortedKeys (e :: m) = true) :
    sortedKeys m = true := by
  cases m with
  | nil => rfl
  | cons f r =>
    simp only [sortedKeys, Bool.and_eq_true] at h
    exact h.2

theorem sortedKeys_head_lt {e : S × S} {m : Store} (h : sortedKeys (e :: m) = true) :
    ∀ f ∈ m, ltS e.1 f.1 = true := by
  induction m generalizing e with
  | nil => intro f hf; simp at hf
  | cons g r ih =>
    intro f hf
    simp only [sortedKeys, Bool.and_eq_true] at h
    rcases List.mem_cons.mp hf with he | hr
    · subst he; exact h.1
    · exact ltS_trans h.1 (ih h.2 f hr)

theorem sortedKeys_append_cons {xs : Store} {y : S × S} {ys : Store}
    (h : sortedKeys (xs ++ y :: ys) = true) : ∀ e ∈ xs, ltS e.1 y.1 = true := by
  induction xs with
  | nil => intro e he; simp at he
  | cons a xs ih =>
    intro e he
    rcases List.mem_cons.mp he with rfl | hx
    · exact sortedKeys_head_lt h y (by simp)
    · exact ih (sortedKeys_tail h) e hx

/- ### insertStore / lookupStore lemmas -/

theorem insertStore_append {m : Store} {k : S} (v : S)
    (h : ∀ e ∈ m, ltS e.1 k = true) : insertStore m k v = m ++ [(k, v)] := by
  induction m with
  | nil => rfl
  | cons e rest ih =>
    have he : ltS e.1 k = true := h e (by simp)
    have h1 : ltS k e.1 = false := ltS_asymm he
    have h2 : k ≠ e.1 := fun hq => ltS_ne he hq.symm
    simp only [insertStore, h1, h2, if_false, Bool.false_eq_true, List.cons_append]
    rw [ih (fun f hf => h f (by simp [hf]))]

theorem lookupStore_insert (m : Store) (k v q : S) :
    lookupStore (insertStore m k v) q = if q = k then some v else lookupStore m q := by
  induction m with
  | nil => simp [insertStore, lookupStore]
  | cons e rest ih =>
    obtain ⟨k0, v0⟩ := e
    by_cases h1 : ltS k k0 = true
    · simp only [insertStore, h1, if_true]
      by_cases hq : q = k
      · simp [lookupStore, hq]
      · simp [lookupStore, hq]
    · simp only [insertStore, h1, if_false]
      by_cases h2 : k = k0
      · subst h2
        by_cases hq : q = k
        · simp [lookupStore, hq]
        · simp [lookupStore, hq]
      · rw [if_neg h2]
        by_cases hq : q = k0
        · have hqk : q ≠ k := by rw [hq]; exact fun hc => h2 hc.symm
          have hk0 : k0 ≠ k := fun hc => h2 hc.symm
          simp [lookupStore, hq, hqk, hk0]
        · simp [lookupStore, hq, ih]

theorem lookupStore_isSome_insert {m : Store} {q : S} (k v : S)
    (h : (lookupStore m q).isSome = true) :
    (lookupStore (insertStore m k v) q).isSome = true := by
  rw [lookupStore_insert]
  by_cases hq : q = k
  · simp [hq]
  · simpa [hq] using h

/- ### idxOfC and splitting lemmas -/

theorem idxOfC_none_iff (c : Char) (l : S) : idxOfC c l = none ↔ c ∉ l := by
  induction l with
  | nil => simp [idxOfC]
  | cons d rest ih =>
    by_cases hd : d = c
    · subst hd; simp [idxOfC]
    · simp only [idxOfC, hd, if_false]
      constructor
      · intro h
        cases hx : idxOfC c rest with
        | none =>
          intro hm
          rcases List.mem_cons.mp hm with he | hr
          · exact hd he.symm
          · exact (ih.mp hx) hr
        | some i => rw [hx] at h; simp at h
      · intro h
        have : c ∉ rest := fun hr => h (by simp [hr])
        rw [ih.mpr this]
        rfl

theorem idxOfC_append (c : Char) {a : S} (b : S) (ha : c ∉ a) :
    idxOfC c (a ++ c :: b) = some a.length := by
  induction a with
  | nil => simp [idxOfC]
  | cons d rest ih =>
    have hd : d ≠ c := fun he => ha (by simp [he])
    have hr : c ∉ rest := fun hm => ha (by simp [hm])
    simp [idxOfC, hd, ih hr]

theorem idxOfC_split {c : Char} {k : S} {i : Nat} (h : idxOfC c k = some i) :
    k = k.take i ++ c :: k.drop (i + 1) ∧ c ∉ k.take i := by
  induction k generalizing i with
  | nil => simp [idxOfC] at h
  | cons d rest ih =>
    by_cases hd : d = c
    · subst hd
      simp only [idxOfC, if_true] at h
      cases h
      simp
    · simp only [idxOfC, hd, if_false] at h
      cases hx : idxOfC c rest with
      | none => rw [hx] at h; simp at h
      | some j =>
        rw [hx] at h
        simp at h
        subst h
        rcases ih hx with ⟨h1, h2⟩
        constructor
        · simpa [List.take_succ_cons, List.drop_succ_cons] using congrArg (fun t => d :: t) h1
        · intro hm
          rcases List.mem_cons.mp hm with he | hr
          · exact hd he.symm
          · exact h2 hr

theorem splitSlash_recompose {k : S} (h : k.contains '/' = true) :
    k = sectOf k ++ '/' :: keyOf k ∧ '/' ∉ sectOf k := by
  have hmem : '/' ∈ k := by
    simpa using h
  cases hx : idxOfC '/' k with
  | none => exact absurd hmem ((idxOfC_none_iff '/' k).mp hx)
  | some i =>
    rcases idxOfC_split hx with ⟨h1, h2⟩
    constructor
    · simpa [sectOf, keyOf, splitSlash, hx] using h1
    · simpa [sectOf, splitSlash, hx] using h2

/- ### list append helper lemmas -/

theorem head?_append_left {a : S} (b : S) (h : a ≠ []) : (a ++ b).head? = a.head? := by
  cases a with
  | nil => exact absurd rfl h
  | cons c r => rfl

theorem getLast?_append_right (a : S) {b : S} (h : b ≠ []) :
    (a ++ b).getLast? = b.getLast? :=
  List.getLast?_append_of_ne_nil a h

theorem not_mem_of_contains_false {c : Char} {l : S} (h : l.contains c = false) : c ∉ l := by
  intro hm
  have hc : l.contains c = true := by simpa using hm
  rw [h] at hc
  exact Bool.false_ne_true hc

theorem takeWhile_all {p : Char → Bool} : ∀ {l : S}, (∀ c ∈ l, p c = true) → l.takeWhile p = l := by
  intro l
  induction l with
  | nil => intro _; rfl
  | cons a r ih =>
    intro h
    have ha : p a = true := h a (by simp)
    simp only [List.takeWhile_cons, ha, if_true]
    rw [ih (fun c hc => h c (by simp [hc]))]

/- ### trimWs and cleanLine lemmas -/

theorem dropWhile_eq_self_of_head {p : Char → Bool} {l : S}
    (h : ∀ c, l.head? = some c → p c = false) : l.dropWhile p = l := by
  cases l with
  | nil => rfl
  | cons a r =>
    have := h a rfl
    simp [List.dropWhile_cons, this]

theorem trimWs_eq_self {s : S} (h1 : s.head? ≠ some ' ') (h2 : s.getLast? ≠ some ' ') :
    trimWs s = s := by
  unfold trimWs
  have e1 : s.dropWhile (fun c => decide (c = ' ')) = s := by
    apply dropWhile_eq_self_of_head
    intro c hc
    by_cases hcc : c = ' '
    · subst hcc; exact absurd hc h1
    · simp [hcc]
  rw [e1]
  have e2 : s.reverse.dropWhile (fun c => decide (c = ' ')) = s.reverse := by
    apply dropWhile_eq_self_of_head
    intro c hc
    rw [List.head?_reverse] at hc
    by_cases hcc : c = ' '
    · subst hcc; exact absurd hc h2
    · simp [hcc]
  rw [e2, List.reverse_reverse]

theorem trimWs_append_space {k : S} (hk : k ≠ [])
    (h1 : k.head? ≠ some ' ') (h2 : k.getLast? ≠ some ' ') :
    trimWs (k ++ [' ']) = k := by
  unfold trimWs
  have e1 : (k ++ [' ']).dropWhile (fun c => decide (c = ' ')) = k ++ [' '] := by
    apply dropWhile_eq_self_of_head
    intro c hc
    rw [head?_append_left [' '] hk] at hc
    by_cases hcc : c = ' '
    · subst hcc; exact absurd hc h1
    · simp [hcc]
  rw [e1, List.reverse_append]
  have e2 : ([' '].reverse ++ k.reverse).dropWhile (fun c => decide (c = ' ')) = k.reverse := by
    show ((' ' :: k.reverse).dropWhile (fun c => decide (c = ' '))) = k.reverse
    rw [List.dropWhile_cons, if_pos (by decide : (decide (' ' = ' ')) = true)]
    apply dropWhile_eq_self_of_head
    intro c hc
    rw [List.head?_reverse] at hc
    by_cases hcc : c = ' '
    · subst hcc; exact absurd hc h2
    · simp [hcc]
  rw [e2, List.reverse_reverse]

theorem trimWs_space_cons {v : S} (h1 : v.head? ≠ some ' ') (h2 : v.getLast? ≠ some ' ') :
    trimWs (' ' :: v) = v := by
  unfold trimWs
  rw [List.dropWhile_cons, if_pos (by decide : (decide (' ' = ' ')) = true)]
  have e1 : v.dropWhile (fun c => decide (c = ' ')) = v := by
    apply dropWhile_eq_self_of_head
    intro c hc
    by_cases hcc : c = ' '
    · subst hcc; exact absurd hc h1
    · simp [hcc]
  rw [e1]
  have e2 : v.reverse.dropWhile (fun c => decide (c = ' ')) = v.reverse := by
    apply dropWhile_eq_self_of_head
    intro c hc
    rw [List.head?_reverse] at hc
    by_cases hcc : c = ' '
    · subst hcc; exact absurd hc h2
    · simp [hcc]
  rw [e2, List.reverse_reverse]

theorem stripComment_eq_self {l : S} (h : '#' ∉ l) : stripComment l = l := by
  apply takeWhile_all
  intro c hc
  have : c ≠ '#' := fun he => h (he ▸ hc)
  simp [this]

theorem cleanLine_kv {key v : S} (hk : key ≠ []) (hv : v ≠ [])
    (hkh : key.contains '#' = false) (hvh : v.contains '#' = false)
    (hk1 : key.head? ≠ some ' ') (hk2 : key.getLast? ≠ some ' ')
    (hv1 : v.head? ≠ some ' ') (hv2 : v.getLast? ≠ some ' ') :
    cleanLine (key ++ (' ' :: '=' :: ' ' :: v)) = key ++ (' ' :: '=' :: ' ' :: v) := by
  unfold cleanLine
  have hsc : stripComment (key ++ (' ' :: '=' :: ' ' :: v)) = key ++ (' ' :: '=' :: ' ' :: v) := by
    apply stripComment_eq_self
    intro hm
    rcases List.mem_append.mp hm with h | h
    · exact not_mem_of_contains_false hkh h
    · rcases h with _ | ⟨_, _ | ⟨_, _ | ⟨_, h⟩⟩⟩
      exact not_mem_of_contains_false hvh h
  rw [hsc]
  apply trimWs_eq_self
  · rw [head?_append_left _ hk]; exact hk1
  · rw [getLast?_append_right key (by simp)]
    rw [show ((' ' :: '=' :: ' ' :: v).getLast? : Option Char) = v.getLast? from
      getLast?_append_right [' ', '=', ' '] hv]
    exact hv2

theorem cleanLine_header {sec : S} (hh : sec.contains '#' = false)
    (h1 : sec.head? ≠ some ' ') (h2 : sec.getLast? ≠ some ' ') :
    cleanLine ('[' :: (sec ++ [']'])) = '[' :: (sec ++ [']']) := by
  unfold cleanLine
  have hsc : stripComment ('[' :: (sec ++ [']'])) = '[' :: (sec ++ [']']) := by
    apply stripComment_eq_self
    intro hm
    rcases List.mem_cons.mp hm with he | hm2
    · exact absurd he.symm (by decide)
    · rcases List.mem_append.mp hm2 with h | h
      · exact not_mem_of_contains_false hh h
      · simp at h
  rw [hsc]
  apply trimWs_eq_self
  · simp
  · rw [show (('[' :: (sec ++ [']'])).getLast? : Option Char) = some ']' from
      List.getLast?_concat ('[' :: sec)]
    simp

theorem cleanAndFilter_cons (l : S) (ls : List S) :
    cleanAndFilter (l :: ls) =
      if cleanLine l = [] then cleanAndFilter ls else cleanLine l :: cleanAndFilter ls := by
  simp only [cleanAndFilter, List.filterMap_cons]
  by_cases h : cleanLine l = [] <;> simp [h]

/- ### processLine evaluation lemmas -/

theorem processLine_kv (sec : S) (m : Store) {key v : S}
    (hk : key ≠ []) (hv : v ≠ [])
    (hkeq : key.contains '=' = false)
    (hk1 : key.head? ≠ some ' ') (hk2 : key.getLast? ≠ some ' ')
    (hv1 : v.head? ≠ some ' ') (hv2 : v.getLast? ≠ some ' ')
    (hbr : ¬(key.head? = some '[' ∧ v.getLast? = some ']')) :
    processLine sec m (key ++ (' ' :: '=' :: ' ' :: v)) =
      Except.ok (sec, insertStore m (sec ++ '/' :: key) v) := by
  have hhd : (key ++ (' ' :: '=' :: ' ' :: v)).head? = key.head? := head?_append_left _ hk
  have hgl : (key ++ (' ' :: '=' :: ' ' :: v)).getLast? = v.getLast? := by
    rw [getLast?_append_right key (by simp)]
    exact getLast?_append_right [' ', '=', ' '] hv
  have hih : isHeader (key ++ (' ' :: '=' :: ' ' :: v)) = false := by
    unfold isHeader
    rw [hhd, hgl]
    by_cases hA : key.head? = some '['
    · by_cases hB : v.getLast? = some ']'
      · exact absurd ⟨hA, hB⟩ hbr
      · simp [hB]
    · simp [hA]
  have hnotin : '=' ∉ key ++ [' '] := by
    intro hm
    rcases List.mem_append.mp hm with h | h
    · exact not_mem_of_contains_false hkeq h
    · simp at h
  have hidx : idxOfC '=' (key ++ (' ' :: '=' :: ' ' :: v)) = some (key.length + 1) := by
    have h := idxOfC_append '=' (' ' :: v) hnotin
    rw [List.append_assoc] at h
    simpa using h
  have htake : (key ++ (' ' :: '=' :: ' ' :: v)).take (key.length + 1) = key ++ [' '] := by
    have h := @List.take_append Char (key ++ [' ']) ('=' :: ' ' :: v) 0
    rw [List.append_assoc] at h
    simpa using h
  have hdrop : (key ++ (' ' :: '=' :: ' ' :: v)).drop (key.length + 1 + 1) = ' ' :: v := by
    have h := @List.drop_append Char (key ++ [' ']) ('=' :: ' ' :: v) 1
    rw [List.append_assoc] at h
    simpa using h
  unfold processLine
  rw [hih]
  simp only [Bool.false_eq_true, if_false, hidx]
  rw [htake, hdrop, trimWs_append_space hk hk1 hk2, trimWs_space_cons hv1 hv2]
  simp [hk, hv]

theorem processLine_header (sec0 : S) (m : Store) {sec : S}
    (h1 : sec.head? ≠ some ' ') (h2 : sec.getLast? ≠ some ' ') :
    processLine sec0 m ('[' :: (sec ++ [']'])) = Except.ok (sec, m) := by
  have hih : isHeader ('[' :: (sec ++ [']'])) = true := by
    unfold isHeader
    rw [show (('[' :: (sec ++ [']'])).getLast? : Option Char) = some ']' from
      List.getLast?_concat ('[' :: sec)]
    simp
  have hname : headerName ('[' :: (sec ++ [']'])) = sec := by
    unfold headerName
    have hlen : ('[' :: (sec ++ [']'])).length - 2 = sec.length := by
      simp
    have hdrop : ('[' :: (sec ++ [']'])).drop 1 = sec ++ [']'] := rfl
    rw [hdrop, hlen]
    rw [show (sec ++ [']']).take sec.length = sec from by
      have h := @List.take_append Char sec [']'] 0
      simpa using h]
    exact trimWs_eq_self h1 h2
  unfold processLine
  rw [hih, if_pos rfl, hname]

/- ### validity unpacking -/

theorem validName_parts {s : S} (h : validName s = true) :
    s ≠ [] ∧ s.contains '/' = false ∧ s.contains '#' = false ∧ s.contains '=' = false ∧
    s.head? ≠ some ' ' ∧ s.getLast? ≠ some ' ' := by
  simp only [validName, noLeadTrail, Bool.and_eq_true, Bool.not_eq_true'] at h
  obtain ⟨⟨⟨⟨h1, h2⟩, h3⟩, h4⟩, h5, h6⟩ := h
  refine ⟨?_, h2, h3, h4, ?_, ?_⟩
  · intro he; subst he; simp at h1
  · intro he; rw [he] at h5; simp at h5
  · intro he; rw [he] at h6; simp at h6

theorem validValue_parts {v : S} (h : validValue v = true) :
    v ≠ [] ∧ v.contains '#' = false ∧ v.head? ≠ some ' ' ∧ v.getLast? ≠ some ' ' := by
  simp only [validValue, noLeadTrail, Bool.and_eq_true, Bool.not_eq_true'] at h
  obtain ⟨⟨h1, h2⟩, h3, h4⟩ := h
  refine ⟨?_, h2, ?_, ?_⟩
  · intro he; subst he; simp at h1
  · intro he; rw [he] at h3; simp at h3
  · intro he; rw [he] at h4; simp at h4

theorem validEntryA_parts {fk v : S} (h : validEntryA (fk, v) = true) :
    fk = sectOf fk ++ '/' :: keyOf fk ∧
    validName (sectOf fk) = true ∧ validName (keyOf fk) = true ∧ validValue v = true ∧
    (sectOf fk).contains '\n' = false ∧ (keyOf fk).contains '\n' = false ∧
    v.contains '\n' = false ∧
    ¬((keyOf fk).head? = some '[' ∧ v.getLast? = some ']') := by
  simp only [validEntryA, validEntryC1, noNewline, Bool.and_eq_true, Bool.not_eq_true'] at h
  obtain ⟨⟨⟨⟨⟨⟨⟨hsl, hn1⟩, hn2⟩, hvv⟩, hnlS⟩, hnlK⟩, hnlV⟩, hbr⟩ := h
  refine ⟨(splitSlash_recompose hsl).1, hn1, hn2, hvv, hnlS, hnlK, hnlV, ?_⟩
  intro hand
  rw [hand.1, hand.2] at hbr
  simp at hbr

/- ### the round-trip induction -/

theorem processLines_cons (sec : S) (m : Store) (l : S) (ls : List S) :
    processLines sec m (l :: ls) =
      match processLine sec m l with
      | Except.error e => Except.error e
      | Except.ok sm => processLines sm.1 sm.2 ls := rfl

theorem roundtrip_go : ∀ (rest acc : Store) (cursor : S),
    (∀ e ∈ rest, validEntryA e = true) →
    sortedKeys (acc ++ rest) = true →
    ∃ c2, processLines cursor acc (cleanAndFilter ((saveGo cursor rest).map renderEv)) =
      Except.ok (c2, acc ++ rest) := by
  intro rest
  induction rest with
  | nil =>
    intro acc cursor _ _
    exact ⟨cursor, by simp [saveGo, cleanAndFilter, processLines]⟩
  | cons e rest ih =>
    obtain ⟨fk, v⟩ := e
    intro acc cursor hval hsort
    have hve : validEntryA (fk, v) = true := hval (fk, v) (by simp)
    obtain ⟨hre, hn1, hn2, hvv, _, _, _, hbr⟩ := validEntryA_parts hve
    obtain ⟨hsne, _, hsh, _, hs1, hs2⟩ := validName_parts hn1
    obtain ⟨hkne, _, hkh, hkeq, hk1, hk2⟩ := validName_parts hn2
    obtain ⟨hvne, hvh, hv1, hv2⟩ := validValue_parts hvv
    have hlt : ∀ f ∈ acc, ltS f.1 fk = true := by
      intro f hf
      exact sortedKeys_append_cons hsort f hf
    have hins : insertStore acc fk v = acc ++ [(fk, v)] := insertStore_append v hlt
    have hsort2 : sortedKeys ((acc ++ [(fk, v)]) ++ rest) = true := by
      rw [List.append_assoc]
      simpa using hsort
    have hval2 : ∀ f ∈ rest, validEntryA f = true := fun f hf => hval f (by simp [hf])
    have hkvline : cleanLine (keyOf fk ++ (' ' :: '=' :: ' ' :: v)) =
        keyOf fk ++ (' ' :: '=' :: ' ' :: v) :=
      cleanLine_kv hkne hvne hkh hvh hk1 hk2 hv1 hv2
    have hkvne : keyOf fk ++ (' ' :: '=' :: ' ' :: v) ≠ [] := by simp
    have hkvstep : processLine (sectOf fk) acc (keyOf fk ++ (' ' :: '=' :: ' ' :: v)) =
        Except.ok (sectOf fk, acc ++ [(fk, v)]) := by
      rw [processLine_kv (sectOf fk) acc hkne hvne hkeq hk1 hk2 hv1 hv2 hbr, ← hre, hins]
    obtain ⟨c2, hp⟩ := ih (acc ++ [(fk, v)]) (sectOf fk) hval2 hsort2
    have hfinal : Except.ok (c2, acc ++ [(fk, v)] ++ rest) =
        (Except.ok (c2, acc ++ (fk, v) :: rest) : Except (S × Store) (S × Store)) := by
      simp
    by_cases hc : sectOf fk = cursor
    · subst hc
      refine ⟨c2, ?_⟩
      rw [show saveGo (sectOf fk) ((fk, v) :: rest) =
          Ev.kv (keyOf fk) v :: saveGo (sectOf fk) rest from by
        simp [saveGo]]
      rw [List.map_cons]
      rw [show renderEv (Ev.kv (keyOf fk) v) = keyOf fk ++ (' ' :: '=' :: ' ' :: v) from rfl]
      rw [cleanAndFilter_cons, hkvline, if_neg hkvne]
      rw [processLines_cons, hkvstep]
      rw [← hfinal]
      exact hp
    · refine ⟨c2, ?_⟩
      rw [show saveGo cursor ((fk, v) :: rest) =
          Ev.blank :: Ev.header (sectOf fk) :: Ev.kv (keyOf fk) v :: saveGo (sectOf fk) rest from by
        simp [saveGo, hc]]
      rw [List.map_cons, List.map_cons, List.map_cons]
      rw [show renderEv Ev.blank = ([] : S) from rfl]
      rw [show renderEv (Ev.header (sectOf fk)) = '[' :: (sectOf fk ++ [']']) from rfl]
      rw [show renderEv (Ev.kv (keyOf fk) v) = keyOf fk ++ (' ' :: '=' :: ' ' :: v) from rfl]
      rw [cleanAndFilter_cons, if_pos (by rfl : cleanLine ([] : S) = [])]
      rw [cleanAndFilter_cons, cleanLine_header hsh hs1 hs2,
        if_neg (by simp : ¬('[' :: (sectOf fk ++ [']']) = ([] : S)))]
      rw [cleanAndFilter_cons, hkvline, if_neg hkvne]
      rw [processLines_cons, processLine_header cursor acc hs1 hs2]
      rw [show (match (Except.ok (sectOf fk, acc) : Except (S × Store) (S × Store)) with
          | Except.error e => Except.error e
          | Except.ok sm => processLines sm.1 sm.2 ((keyOf fk ++ (' ' :: '=' :: ' ' :: v)) ::
              cleanAndFilter ((saveGo (sectOf fk) rest).map renderEv))) =
          processLines (sectOf fk) acc ((keyOf fk ++ (' ' :: '=' :: ' ' :: v)) ::
              cleanAndFilter ((saveGo (sectOf fk) rest).map renderEv)) from rfl]
      rw [processLines_cons, hkvstep]
      rw [← hfinal]
      exact hp

/- ### relating the saved bytes to the lines load reads back -/

theorem splitLines_append_line : ∀ (l t : S), '\n' ∉ l →
    splitLines (l ++ '\n' :: t) = l :: splitLines t := by
  intro l
  induction l with
  | nil =>
    intro t _
    simp [splitLines]
  | cons c l ih =>
    intro t hn
    have hc : c ≠ '\n' := fun he => hn (by simp [he])
    have hrec := ih t (fun hm => hn (by simp [hm]))
    rw [List.cons_append]
    rw [show splitLines (c :: (l ++ '\n' :: t)) =
        (match splitLines (l ++ '\n' :: t) with
         | [] => [[c]]
         | x :: xs => (c :: x) :: xs) from by
      simp [splitLines, hc]]
    rw [hrec]

theorem splitLines_join : ∀ (ls : List S), (∀ l ∈ ls, '\n' ∉ l) →
    splitLines (ls.foldr (fun l acc => l ++ '\n' :: acc) []) = ls ++ [[]] := by
  intro ls
  induction ls with
  | nil =>
    intro _
    rfl
  | cons l ls ih =>
    intro h
    simp only [List.foldr_cons]
    rw [splitLines_append_line _ _ (h l (by simp)), ih (fun x hx => h x (by simp [hx]))]
    rfl

theorem cleanAndFilter_append_nil (ls : List S) :
    cleanAndFilter (ls ++ [[]]) = cleanAndFilter ls := by
  unfold cleanAndFilter
  rw [List.filterMap_append]
  rw [show List.filterMap (fun l => if cleanLine l = [] then none else some (cleanLine l)) [[]] =
      ([] : List S) from rfl]
  rw [List.append_nil]

theorem saveGo_no_newline : ∀ (m : Store) (c : S),
    (∀ e ∈ m, validEntryA e = true) →
    ∀ l ∈ (saveGo c m).map renderEv, '\n' ∉ l := by
  intro m
  induction m with
  | nil =>
    intro c _ l hl
    simp [saveGo] at hl
  | cons e m ih =>
    obtain ⟨fk, v⟩ := e
    intro c hv l hl
    obtain ⟨hre, hn1, hn2, hvv, hnlS, hnlK, hnlV, hbr⟩ :=
      validEntryA_parts (hv (fk, v) (by simp))
    have hkv : '\n' ∉ keyOf fk ++ (' ' :: '=' :: ' ' :: v) := by
      intro hm
      rcases List.mem_append.mp hm with h | h
      · exact not_mem_of_contains_false hnlK h
      · rcases h with _ | ⟨_, _ | ⟨_, _ | ⟨_, h⟩⟩⟩
        exact not_mem_of_contains_false hnlV h
    have hhdr : '\n' ∉ '[' :: (sectOf fk ++ [']']) := by
      intro hm
      rcases List.mem_cons.mp hm with he | hm2
      · exact absurd he.symm (by decide)
      · rcases List.mem_append.mp hm2 with h | h
        · exact not_mem_of_contains_false hnlS h
        · simp at h
    have hrest : ∀ (c2 : S), ∀ x ∈ (saveGo c2 m).map renderEv, '\n' ∉ x :=
      fun c2 => ih c2 (fun f hf => hv f (by simp [hf]))
    by_cases hc : sectOf fk = c
    · rw [show saveGo c ((fk, v) :: m) = Ev.kv (keyOf fk) v :: saveGo c m from by
        simp [saveGo, hc], List.map_cons] at hl
      rcases List.mem_cons.mp hl with he | hm
      · rw [he]
        exact hkv
      · exact hrest c l hm
    · rw [show saveGo c ((fk, v) :: m) =
        Ev.blank :: Ev.header (sectOf fk) :: Ev.kv (keyOf fk) v :: saveGo (sectOf fk) m from by
        simp [saveGo, hc], List.map_cons, List.map_cons, List.map_cons] at hl
      rcases List.mem_cons.mp hl with he | hl2
      · rw [he]
        simp [renderEv]
      · rcases List.mem_cons.mp hl2 with he | hl3
        · rw [he]
          exact hhdr
        · rcases List.mem_cons.mp hl3 with he | hm
          · rw [he]
            exact hkv
          · exact hrest (sectOf fk) l hm

/-- C1 (amended): for a sorted store all of whose entries satisfy the
C1 validity conditions plus the exclusions the counterexamples force
(no newline inside a section name, bare key or value; no entry whose
bare key starts with '[' while its value ends with ']'), saving to a
file (as bytes) and re-loading the file's lines into a fresh empty
store reproduces the store exactly. -/
theorem save_load_roundtrip (m : Store) (hs : sortedKeys m = true)
    (hv : ∀ e ∈ m, validEntryA e = true) :
    loadedStore (load [] (splitLines (saveText m))) = some m := by
  have hnl : ∀ l ∈ saveLines m, '\n' ∉ l := saveGo_no_newline m [] hv
  have hsplit : splitLines (saveText m) = saveLines m ++ [[]] := by
    unfold saveText
    exact splitLines_join (saveLines m) hnl
  obtain ⟨c2, hp⟩ := roundtrip_go m [] [] hv (by simpa using hs)
  have hload : load [] (splitLines (saveText m)) = Except.ok (c2, m) := by
    unfold load
    rw [hsplit, cleanAndFilter_append_nil]
    unfold saveLines saveEvents
    simpa using hp
  rw [hload]
  rfl

/-- Witness for the amended C1 round-trip theorem at a two-entry store. -/
theorem save_load_roundtrip_witness :
    sortedKeys [((("a/x").toList), (("1").toList)), ((("b/y").toList), (("2").toList))] = true ∧
    (∀ e ∈ [((("a/x").toList), (("1").toList)), ((("b/y").toList), (("2").toList))],
      validEntryA e = true) ∧
    loadedStore (load [] (splitLines (saveText
      [((("a/x").toList), (("1").toList)), ((("b/y").toList), (("2").toList))]))) =
      some [((("a/x").toList), (("1").toList)), ((("b/y").toList), (("2").toList))] :=
  ⟨by decide, by decide,
    save_load_roundtrip
      [((("a/x").toList), (("1").toList)), ((("b/y").toList), (("2").toList))]
      (by decide) (by decide)⟩

/-- C1 counterexample: two single-entry stores satisfying every
validity condition in C1's wording that do not round-trip through the
saved bytes. The key "s/[a" with value "b]" saves as the assignment
line "[a = b]", which load reads back as a section header, so the
reloaded store is empty; and the value "a\nb" (its newline written
verbatim by save) re-splits into two lines on reading, so load throws
the malformed-line error at the stray line "b" instead of succeeding. -/
theorem save_load_roundtrip_cex :
    validEntryC1 ((("s/[a").toList), (("b]").toList)) = true ∧
    sortedKeys [((("s/[a").toList), (("b]").toList))] = true ∧
    load [] (splitLines (saveText [((("s/[a").toList), (("b]").toList))])) =
      Except.ok ((("a = b").toList), ([] : Store)) ∧
    loadedStore (load [] (splitLines (saveText [((("s/[a").toList), (("b]").toList))]))) ≠
      some [((("s/[a").toList), (("b]").toList))] ∧
    validEntryC1 ((("s/k").toList), (("a\nb").toList)) = true ∧
    sortedKeys [((("s/k").toList), (("a\nb").toList))] = true ∧
    load [] (splitLines (saveText [((("s/k").toList), (("a\nb").toList))])) =
      Except.error (msgMalformed (("s").toList) (("b").toList),
        [((("s/k").toList), (("a").toList))]) :=
  ⟨by decide, by decide, by rfl, by decide, by decide, by decide, by rfl⟩

/- ### infixB lemmas for error payloads -/

theorem prefixB_self_append : ∀ (a b : S), prefixB a (a ++ b) = true := by
  intro a b
  induction a with
  | nil => rfl
  | cons c x ih => simp [prefixB, ih]

theorem infixB_of_prefixB : ∀ {l a : S}, prefixB a l = true → infixB a l = true := by
  intro l a h
  cases l with
  | nil => exact h
  | cons b rest =>
    show (prefixB a (b :: rest) || infixB a rest) = true
    rw [h]
    rfl

theorem infixB_cons {a : S} (c : Char) {l : S} (h : infixB a l = true) :
    infixB a (c :: l) = true := by
  show (prefixB a (c :: l) || infixB a l) = true
  rw [h]
  simp

theorem infixB_of_append (x a y : S) : infixB a (x ++ (a ++ y)) = true := by
  induction x with
  | nil => exact infixB_of_prefixB (prefixB_self_append a y)
  | cons c x ih =>
    show infixB a (c :: (x ++ (a ++ y))) = true
    exact infixB_cons c ih

/- ### C3 helper lemmas: the three branches of assignment parsing -/

theorem processLine_no_eq {l : S} (sec : S) (m : Store)
    (hnh : isHeader l = false) (hno : '=' ∉ l) :
    processLine sec m l = Except.error (msgMalformed sec l, m) := by
  unfold processLine
  rw [hnh]
  simp only [Bool.false_eq_true, if_false]
  rw [(idxOfC_none_iff '=' l).mpr hno]

theorem processLine_empty_part {l : S} (sec : S) (m : Store) {i : Nat}
    (hnh : isHeader l = false) (hx : idxOfC '=' l = some i)
    (he : trimWs (l.take i) = [] ∨ trimWs (l.drop (i + 1)) = []) :
    processLine sec m l =
      Except.error (msgMissing sec (trimWs (l.take i)) (trimWs (l.drop (i + 1))), m) := by
  unfold processLine
  rw [hnh]
  simp only [Bool.false_eq_true, if_false]
  rw [hx]
  simp only [if_pos he]

theorem processLine_accepted {l : S} (sec : S) (m : Store) {i : Nat}
    (hnh : isHeader l = false) (hx : idxOfC '=' l = some i)
    (he : ¬(trimWs (l.take i) = [] ∨ trimWs (l.drop (i + 1)) = [])) :
    processLine sec m l =
      Except.ok (sec, insertStore m (sec ++ '/' :: trimWs (l.take i)) (trimWs (l.drop (i + 1)))) := by
  unfold processLine
  rw [hnh]
  simp only [Bool.false_eq_true, if_false]
  rw [hx]
  simp only [if_neg he]

/-- C3 (amended): a cleaned non-header line fails with the malformed
line error exactly when it has no '=', or key or value is empty after
trimming; the no-'=' failure message carries the offending line and the
current section, while the empty-key-or-value failure message carries
the section and the trimmed key and value (not the original line);
otherwise the trimmed key and value are accepted and the entry
section/key is inserted with the trimmed value. -/
theorem processLine_malformed (sec : S) (m : Store) (l : S) (hnh : isHeader l = false) :
    ((∃ e, processLine sec m l = Except.error e) ↔
      ('=' ∉ l ∨ ∃ i, idxOfC '=' l = some i ∧
        (trimWs (l.take i) = [] ∨ trimWs (l.drop (i + 1)) = []))) ∧
    ('=' ∉ l →
      processLine sec m l = Except.error (msgMalformed sec l, m) ∧
      infixB l (msgMalformed sec l) = true ∧
      infixB sec (msgMalformed sec l) = true) ∧
    (∀ i, idxOfC '=' l = some i →
      (trimWs (l.take i) = [] ∨ trimWs (l.drop (i + 1)) = []) →
      processLine sec m l =
        Except.error (msgMissing sec (trimWs (l.take i)) (trimWs (l.drop (i + 1))), m) ∧
      infixB sec (msgMissing sec (trimWs (l.take i)) (trimWs (l.drop (i + 1)))) = true ∧
      infixB (trimWs (l.take i) ++ '=' :: trimWs (l.drop (i + 1)))
        (msgMissing sec (trimWs (l.take i)) (trimWs (l.drop (i + 1)))) = true) ∧
    (∀ i, idxOfC '=' l = some i →
      ¬(trimWs (l.take i) = [] ∨ trimWs (l.drop (i + 1)) = []) →
      processLine sec m l =
        Except.ok (sec,
          insertStore m (sec ++ '/' :: trimWs (l.take i)) (trimWs (l.drop (i + 1))))) := by
  refine ⟨?_, ?_, ?_, fun i hx hcond => processLine_accepted sec m hnh hx hcond⟩
  · constructor
    · intro ⟨e, he⟩
      cases hx : idxOfC '=' l with
      | none => exact Or.inl ((idxOfC_none_iff '=' l).mp hx)
      | some i =>
        by_cases hcond : trimWs (l.take i) = [] ∨ trimWs (l.drop (i + 1)) = []
        · exact Or.inr ⟨i, rfl, hcond⟩
        · rw [processLine_accepted sec m hnh hx hcond] at he
          exact Except.noConfusion he
    · intro h
      rcases h with hno | ⟨i, hx, hcond⟩
      · exact ⟨(msgMalformed sec l, m), processLine_no_eq sec m hnh hno⟩
      · exact ⟨(msgMissing sec (trimWs (l.take i)) (trimWs (l.drop (i + 1))), m),
          processLine_empty_part sec m hnh hx hcond⟩
  · intro hno
    refine ⟨processLine_no_eq sec m hnh hno, ?_, ?_⟩
    · rw [show msgMalformed sec l = (litUnder ++ sec ++ litMalformed) ++ (l ++ litClose) from by
        unfold msgMalformed; simp [List.append_assoc]]
      exact infixB_of_append (litUnder ++ sec ++ litMalformed) l litClose
    · rw [show msgMalformed sec l = litUnder ++ (sec ++ (litMalformed ++ l ++ litClose)) from by
        unfold msgMalformed; simp [List.append_assoc]]
      exact infixB_of_append litUnder sec (litMalformed ++ l ++ litClose)
  · intro i hx hcond
    refine ⟨processLine_empty_part sec m hnh hx hcond, ?_, ?_⟩
    · rw [show msgMissing sec (trimWs (l.take i)) (trimWs (l.drop (i + 1))) =
          litUnder ++ (sec ++ (litMissing ++ trimWs (l.take i) ++
            ('=' :: trimWs (l.drop (i + 1))) ++ litClose)) from by
        unfold msgMissing; simp [List.append_assoc]]
      exact infixB_of_append litUnder sec _
    · rw [show msgMissing sec (trimWs (l.take i)) (trimWs (l.drop (i + 1))) =
          (litUnder ++ sec ++ litMissing) ++
            ((trimWs (l.take i) ++ '=' :: trimWs (l.drop (i + 1))) ++ litClose) from by
        unfold msgMissing; simp [List.append_assoc]]
      exact infixB_of_append (litUnder ++ sec ++ litMissing)
        (trimWs (l.take i) ++ '=' :: trimWs (l.drop (i + 1))) litClose

/-- Witness for the amended C3 theorem: the line "foo bar" (no '=')
under section "s" fails with the message carrying the line and section,
and the well-formed line "dt = 0.1" is accepted with trimmed key and
value. -/
theorem processLine_malformed_witness :
    isHeader (("foo bar").toList) = false ∧
    processLine (("s").toList) [] (("foo bar").toList) =
      Except.error (msgMalformed (("s").toList) (("foo bar").toList), []) ∧
    infixB (("foo bar").toList) (msgMalformed (("s").toList) (("foo bar").toList)) = true ∧
    processLine (("s").toList) [] (("dt = 0.1").toList) =
      Except.ok ((("s").toList), [((("s/dt").toList), (("0.1").toList))]) :=
  ⟨by decide,
    ((processLine_malformed (("s").toList) [] (("foo bar").toList) (by decide)).2.1
      (by decide)).1,
    ((processLine_malformed (("s").toList) [] (("foo bar").toList) (by decide)).2.1
      (by decide)).2.1,
    ((processLine_malformed (("s").toList) [] (("dt = 0.1").toList) (by decide)).2.2.2
      3 (by decide) (by decide)).trans (by rfl)⟩

/-- C3 counterexample: the line "x =" (empty value after trimming)
fails with a message showing the trimmed "x=", which does not contain
the offending line "x =", so the empty-part failure does not carry the
offending line. -/
theorem processLine_malformed_cex :
    isHeader (("x =").toList) = false ∧
    processLine (("s").toList) [] (("x =").toList) =
      Except.error (msgMissing (("s").toList) (("x").toList) [], []) ∧
    infixB (("x =").toList) (msgMissing (("s").toList) (("x").toList) []) = false :=
  ⟨by decide, by rfl, by decide⟩

/- ### C9: partial state on failure -/

theorem processLine_error_store {sec : S} {m : Store} {l : S} {msg : S} {m2 : Store}
    (h : processLine sec m l = Except.error (msg, m2)) : m2 = m := by
  unfold processLine at h
  split at h
  · exact Except.noConfusion h
  · split at h
    · simp only [Except.error.injEq, Prod.mk.injEq] at h
      exact h.2.symm
    · split at h
      · simp only [Except.error.injEq, Prod.mk.injEq] at h
        exact h.2.symm
      · exact Except.noConfusion h

theorem processLines_error_decompose :
    ∀ (L : List S) (sec0 : S) (m : Store) (msg : S) (mErr : Store),
    processLines sec0 m L = Except.error (msg, mErr) →
    ∃ sec pre bad post, L = pre ++ bad :: post ∧
      processLines sec0 m pre = Except.ok (sec, mErr) ∧
      processLine sec mErr bad = Except.error (msg, mErr) := by
  intro L
  induction L with
  | nil =>
    intro sec0 m msg mErr h
    exact Except.noConfusion h
  | cons l ls ih =>
    intro sec0 m msg mErr h
    rw [processLines_cons] at h
    cases hx : processLine sec0 m l with
    | error e =>
      rw [hx] at h
      simp only [Except.error.injEq] at h
      subst h
      have hm : mErr = m := processLine_error_store hx
      subst hm
      exact ⟨sec0, [], l, ls, by simp, rfl, hx⟩
    | ok sm =>
      rw [hx] at h
      simp only at h
      obtain ⟨sec, pre, bad, post, hL, hpre, hbad⟩ := ih sm.1 sm.2 msg mErr h
      refine ⟨sec, l :: pre, bad, post, by simp [hL], ?_, hbad⟩
      rw [processLines_cons, hx]
      exact hpre

theorem processLine_mono {sec : S} {m : Store} {l : S} {sm : S × Store}
    (h : processLine sec m l = Except.ok sm) :
    ∀ q, (lookupStore m q).isSome = true → (lookupStore sm.2 q).isSome = true := by
  unfold processLine at h
  split at h
  · intro q hq
    have hsm : sm = (headerName l, m) := by
      injection h with h1
      exact h1.symm
    rw [hsm]
    exact hq
  · split at h
    · exact Except.noConfusion h
    · split at h
      · exact Except.noConfusion h
      · intro q hq
        injection h with h1
        rw [← h1]
        exact lookupStore_isSome_insert _ _ hq

theorem processLines_mono :
    ∀ (L : List S) (sec : S) (m : Store) (sm : S × Store),
    processLines sec m L = Except.ok sm →
    ∀ q, (lookupStore m q).isSome = true → (lookupStore sm.2 q).isSome = true := by
  intro L
  induction L with
  | nil =>
    intro sec m sm h q hq
    have : sm = (sec, m) := by
      injection h with h1
      exact h1.symm
    rw [this]
    exact hq
  | cons l ls ih =>
    intro sec m sm h q hq
    rw [processLines_cons] at h
    cases hx : processLine sec m l with
    | error e =>
      rw [hx] at h
      exact Except.noConfusion h
    | ok sm1 =>
      rw [hx] at h
      simp only at h
      exact ih sm1.1 sm1.2 sm h q (processLine_mono hx q hq)

/-- C9: when load throws partway through a file, the store contains the
pre-call entries plus everything inserted by the accepted assignment
lines before the failing line (no rollback): the cleaned line list
splits around a failing line, the prefix processes successfully from
the pre-call store to exactly the state at the throw, and every key
present before the call is still present. -/
theorem load_partial_on_error (ls : List S) (m : Store) (msg : S) (mErr : Store)
    (h : load m ls = Except.error (msg, mErr)) :
    ∃ sec pre bad post,
      cleanAndFilter ls = pre ++ bad :: post ∧
      processLines [] m pre = Except.ok (sec, mErr) ∧
      processLine sec mErr bad = Except.error (msg, mErr) ∧
      (∀ q, (lookupStore m q).isSome = true → (lookupStore mErr q).isSome = true) := by
  unfold load at h
  obtain ⟨sec, pre, bad, post, hL, hpre, hbad⟩ :=
    processLines_error_decompose (cleanAndFilter ls) [] m msg mErr h
  exact ⟨sec, pre, bad, post, hL, hpre, hbad,
    fun q hq => processLines_mono pre [] m (sec, mErr) hpre q hq⟩

/-- Witness for C9 at a concrete failing file over a non-empty store. -/
theorem load_partial_on_error_witness :
    (∃ sec pre bad post,
      cleanAndFilter [(("[s]").toList), (("a = 1").toList), (("bad line").toList),
        (("b = 2").toList)] = pre ++ bad :: post ∧
      processLines [] [((("t/x").toList), (("9").toList))] pre =
        Except.ok (sec, [((("s/a").toList), (("1").toList)), ((("t/x").toList), (("9").toList))]) ∧
      processLine sec [((("s/a").toList), (("1").toList)), ((("t/x").toList), (("9").toList))] bad =
        Except.error (msgMalformed (("s").toList) (("bad line").toList),
          [((("s/a").toList), (("1").toList)), ((("t/x").toList), (("9").toList))]) ∧
      (∀ q, (lookupStore [((("t/x").toList), (("9").toList))] q).isSome = true →
        (lookupStore [((("s/a").toList), (("1").toList)), ((("t/x").toList), (("9").toList))]
          q).isSome = true)) :=
  load_partial_on_error
    [(("[s]").toList), (("a = 1").toList), (("bad line").toList), (("b = 2").toList)]
    [((("t/x").toList), (("9").toList))]
    (msgMalformed (("s").toList) (("bad line").toList))
    [((("s/a").toList), (("1").toList)), ((("t/x").toList), (("9").toList))]
    (by rfl)

/- ### C5, C6, C10: the typed accessor layer -/

/-- C5: get on an absent composite key fails with the KeyError carrying
the missing key; on a present key it returns normally (no KeyError),
both for the string and for the int instantiation. -/
theorem get_missing_key (m : Store) (k : S) :
    (lookupStore m k = none →
      getString m k = Except.error (keyErrMsg k) ∧
      getInt m k = Except.error (keyErrMsg k)) ∧
    (∀ v, lookupStore m k = some v →
      getString m k = Except.ok (extractToken v) ∧
      getInt m k = Except.ok (extractInt v)) := by
  constructor
  · intro h
    constructor
    · unfold getString
      rw [h]
    · unfold getInt
      rw [h]
  · intro v h
    constructor
    · unfold getString
      rw [h]
    · unfold getInt
      rw [h]

/-- Witness for C5: a missing key "nope/x" fails with its KeyError, a
present key "a/b" returns normally. -/
theorem get_missing_key_witness :
    getString [((("a/b").toList), (("7").toList))] (("nope/x").toList) =
      Except.error (keyErrMsg (("nope/x").toList)) ∧
    getString [((("a/b").toList), (("7").toList))] (("a/b").toList) =
      Except.ok (extractToken (("7").toList)) :=
  ⟨((get_missing_key [((("a/b").toList), (("7").toList))] (("nope/x").toList)).1
      (by decide)).1,
    ((get_missing_key [((("a/b").toList), (("7").toList))] (("a/b").toList)).2
      (("7").toList) (by decide)).1⟩

/-- C6 (code-bug evidence): with key "a/x" stored as "hello", get at
type int finds the key, the stream extraction fails to produce an int,
and the call still returns normally (Except.ok) with no extracted value
instead of raising any conversion error; the only error paths in the
source are ParametersFileError and KeyError. -/
theorem getInt_silent_on_conversion_failure :
    lookupStore [((("a/x").toList), (("hello").toList))] (("a/x").toList) =
      some (("hello").toList) ∧
    extractInt (("hello").toList) = none ∧
    getInt [((("a/x").toList), (("hello").toList))] (("a/x").toList) = Except.ok none :=
  ⟨by decide, by rfl, by rfl⟩

/-- C10: when the stored value starts with a non-whitespace character
and contains a space, get at type std::string assigns only the maximal
whitespace-free prefix (the first extracted token), a strict prefix of
the stored value. -/
theorem getString_first_token (m : Store) (k v : S)
    (hv : lookupStore m k = some v)
    (hh : ∀ c, v.head? = some c → isStreamWs c = false)
    (hsp : ' ' ∈ v) :
    getString m k = Except.ok (some (v.takeWhile (fun c => !(isStreamWs c)))) ∧
    v.takeWhile (fun c => !(isStreamWs c)) ≠ v := by
  have hvne : v ≠ [] := by
    intro he
    subst he
    simp at hsp
  have hdw : v.dropWhile isStreamWs = v := dropWhile_eq_self_of_head hh
  have htw : v.takeWhile (fun c => !(isStreamWs c)) ≠ v := by
    intro he
    have hmem : ' ' ∈ v.takeWhile (fun c => !(isStreamWs c)) := by
      rw [he]
      exact hsp
    have h2 := List.mem_takeWhile_imp hmem
    simp [isStreamWs] at h2
  refine ⟨?_, htw⟩
  have htne : v.takeWhile (fun c => !(isStreamWs c)) ≠ [] := by
    cases v with
    | nil => exact absurd rfl hvne
    | cons c r =>
      have hc := hh c rfl
      simp [List.takeWhile_cons, hc]
  unfold getString
  rw [hv]
  show Except.ok (extractToken v) = Except.ok (some (v.takeWhile (fun c => !(isStreamWs c))))
  unfold extractToken
  rw [if_neg (by rw [hdw]; exact htne), hdw]

/- ### C4: merge semantics of repeated loads -/

theorem processLine_cases (sec : S) (l : S) :
    (∀ m, processLine sec m l = Except.ok (headerName l, m)) ∨
    (∃ msg, ∀ m, processLine sec m l = Except.error (msg, m)) ∨
    (∃ k v, ∀ m, processLine sec m l = Except.ok (sec, insertStore m (sec ++ '/' :: k) v)) := by
  by_cases hh : isHeader l = true
  · left
    intro m
    unfold processLine
    rw [hh, if_pos rfl]
  · have hh2 : isHeader l = false := by
      cases hx : isHeader l
      · rfl
      · exact absurd hx hh
    cases hx : idxOfC '=' l with
    | none =>
      right
      left
      exact ⟨msgMalformed sec l,
        fun m => processLine_no_eq sec m hh2 ((idxOfC_none_iff '=' l).mp hx)⟩
    | some i =>
      by_cases hcond : trimWs (l.take i) = [] ∨ trimWs (l.drop (i + 1)) = []
      · right
        left
        exact ⟨msgMissing sec (trimWs (l.take i)) (trimWs (l.drop (i + 1))),
          fun m => processLine_empty_part sec m hh2 hx hcond⟩
      · right
        right
        exact ⟨trimWs (l.take i), trimWs (l.drop (i + 1)),
          fun m => processLine_accepted sec m hh2 hx hcond⟩

theorem processLines_sim :
    ∀ (L : List S) (s : S) (m1 m2 : Store) (sm1 : S × Store),
    processLines s m1 L = Except.ok sm1 →
    ∃ m2f, processLines s m2 L = Except.ok (sm1.1, m2f) ∧
      ∀ q, (lookupStore sm1.2 q = lookupStore m1 q ∧ lookupStore m2f q = lookupStore m2 q) ∨
           (∃ v, lookupStore sm1.2 q = some v ∧ lookupStore m2f q = some v) := by
  intro L
  induction L with
  | nil =>
    intro s m1 m2 sm1 h
    injection h with h1
    subst h1
    refine ⟨m2, rfl, ?_⟩
    intro q
    left
    exact ⟨rfl, rfl⟩
  | cons l ls ih =>
    intro s m1 m2 sm1 h
    rw [processLines_cons] at h
    rcases processLine_cases s l with hcase | ⟨msg, hcase⟩ | ⟨k, v, hcase⟩
    · rw [hcase m1] at h
      simp only at h
      obtain ⟨m2f, hrun, hrel⟩ := ih (headerName l) m1 m2 sm1 h
      refine ⟨m2f, ?_, hrel⟩
      rw [processLines_cons, hcase m2]
      exact hrun
    · rw [hcase m1] at h
      exact Except.noConfusion h
    · rw [hcase m1] at h
      simp only at h
      obtain ⟨m2f, hrun, hrel⟩ :=
        ih s (insertStore m1 (s ++ '/' :: k) v) (insertStore m2 (s ++ '/' :: k) v) sm1 h
      refine ⟨m2f, ?_, ?_⟩
      · rw [processLines_cons, hcase m2]
        exact hrun
      · intro q
        rcases hrel q with ⟨ha, hb⟩ | ⟨w, ha, hb⟩
        · rw [lookupStore_insert] at ha hb
          by_cases hq : q = s ++ '/' :: k
          · right
            exact ⟨v, by rw [ha, if_pos hq], by rw [hb, if_pos hq]⟩
          · left
            exact ⟨by rw [ha, if_neg hq], by rw [hb, if_neg hq]⟩
        · right
          exact ⟨w, ha, hb⟩

/-- C4: each accepted assignment inserts its composite entry with
overwrite semantics (last write wins on a composite key), and load is
additive: loading file B over the store produced by file A succeeds,
ends in B's final section, and yields at every key B's value when B
defines it, otherwise A's value. -/
theorem load_merge (A B : List S) (mA mB : Store) (sA sB : S)
    (hA : load [] A = Except.ok (sA, mA)) (hB : load [] B = Except.ok (sB, mB)) :
    (∀ (m : Store) (k v q : S),
      lookupStore (insertStore m k v) q = if q = k then some v else lookupStore m q) ∧
    loadedSection (load mA B) = some sB ∧
    (∀ q, (loadedStore (load mA B)).map (fun st => lookupStore st q) =
      some (mergeLookup mA mB q)) := by
  have hB2 : processLines [] [] (cleanAndFilter B) = Except.ok (sB, mB) := hB
  obtain ⟨m2f, hrun, hrel⟩ := processLines_sim (cleanAndFilter B) [] [] mA (sB, mB) hB2
  have hload : load mA B = Except.ok (sB, m2f) := hrun
  refine ⟨fun m k v q => lookupStore_insert m k v q, ?_, ?_⟩
  · rw [hload]
    rfl
  · intro q
    rw [hload]
    show some (lookupStore m2f q) = some (mergeLookup mA mB q)
    unfold mergeLookup
    rcases hrel q with ⟨ha, hb⟩ | ⟨w, ha, hb⟩
    · rw [show lookupStore mB q = (none : Option S) from ha, hb]
    · rw [show lookupStore mB q = some w from ha, hb]

/-- Witness for C4: after loading file A = ([s]; k = 1; j = 2) and then
file B = ([s]; k = 3) over its store, the key s/k carries B's value. -/
theorem load_merge_witness :
    (loadedStore (load [((("s/j").toList), (("2").toList)), ((("s/k").toList), (("1").toList))]
      [(("[s]").toList), (("k = 3").toList)])).map
        (fun st => lookupStore st (("s/k").toList)) =
      some (mergeLookup
        [((("s/j").toList), (("2").toList)), ((("s/k").toList), (("1").toList))]
        [((("s/k").toList), (("3").toList))] (("s/k").toList)) :=
  (load_merge
    [(("[s]").toList), (("k = 1").toList), (("j = 2").toList)]
    [(("[s]").toList), (("k = 3").toList)]
    [((("s/j").toList), (("2").toList)), ((("s/k").toList), (("1").toList))]
    [((("s/k").toList), (("3").toList))]
    (("s").toList) (("s").toList) (by rfl) (by rfl)).2.2 (("s/k").toList)

/- ### C8: line normalization -/

theorem rev_drop_take (p : Char → Bool) (x : S) :
    x = (x.reverse.dropWhile p).reverse ++ (x.reverse.takeWhile p).reverse := by
  rw [← List.reverse_append, List.takeWhile_append_dropWhile, List.reverse_reverse]

theorem dropWhile_head_not {p : Char → Bool} :
    ∀ (l : S) {c : Char}, (l.dropWhile p).head? = some c → p c = false := by
  intro l
  induction l with
  | nil =>
    intro c h
    exact Option.noConfusion h
  | cons a r ih =>
    intro c h
    rw [List.dropWhile_cons] at h
    by_cases hp : p a
    · rw [if_pos hp] at h
      exact ih h
    · rw [if_neg hp] at h
      have h1 : a = c := by injection h
      subst h1
      cases hpa : p a
      · rfl
      · exact absurd hpa hp

theorem trimWs_head_not_space (s : S) : (trimWs s).head? ≠ some ' ' := by
  intro h
  unfold trimWs at h
  set d := s.dropWhile (fun c => decide (c = ' ')) with hd
  have hne : (d.reverse.dropWhile (fun c => decide (c = ' '))).reverse ≠ [] := by
    intro he
    rw [he] at h
    exact Option.noConfusion h
  have hdec := rev_drop_take (fun c => decide (c = ' ')) d
  have hh : d.head? = some ' ' := by
    rw [hdec, head?_append_left _ hne, h]
  have hp := dropWhile_head_not s (hd ▸ hh)
  simp at hp

theorem trimWs_getLast_not_space (s : S) : (trimWs s).getLast? ≠ some ' ' := by
  intro h
  unfold trimWs at h
  rw [List.getLast?_reverse] at h
  have hp := dropWhile_head_not (s.dropWhile (fun c => decide (c = ' '))).reverse h
  simp at hp

theorem trimWs_decomp (s : S) :
    ∃ a b, (∀ c ∈ a, c = ' ') ∧ (∀ c ∈ b, c = ' ') ∧ s = a ++ trimWs s ++ b := by
  refine ⟨s.takeWhile (fun c => decide (c = ' ')),
    ((s.dropWhile (fun c => decide (c = ' '))).reverse.takeWhile (fun c => decide (c = ' '))).reverse,
    ?_, ?_, ?_⟩
  · intro c hc
    have := List.mem_takeWhile_imp hc
    simpa using this
  · intro c hc
    rw [List.mem_reverse] at hc
    have := List.mem_takeWhile_imp hc
    simpa using this
  · rw [show s.takeWhile (fun c => decide (c = ' ')) ++ trimWs s ++
        ((s.dropWhile (fun c => decide (c = ' '))).reverse.takeWhile
          (fun c => decide (c = ' '))).reverse =
        s.takeWhile (fun c => decide (c = ' ')) ++ (trimWs s ++
        ((s.dropWhile (fun c => decide (c = ' '))).reverse.takeWhile
          (fun c => decide (c = ' '))).reverse) from List.append_assoc _ _ _]
    conv_lhs => rw [← List.takeWhile_append_dropWhile (fun c => decide (c = ' ')) s]
    exact congrArg (fun t => s.takeWhile (fun c => decide (c = ' ')) ++ t)
      (rev_drop_take (fun c => decide (c = ' ')) (s.dropWhile (fun c => decide (c = ' '))))

theorem stripComment_decomp :
    ∀ {l : S}, '#' ∈ l → l = stripComment l ++ '#' :: l.drop ((stripComment l).length + 1) := by
  intro l
  induction l with
  | nil =>
    intro h
    simp at h
  | cons c rest ih =>
    intro h
    by_cases hc : c = '#'
    · subst hc
      rw [show stripComment ('#' :: rest) = [] from by simp [stripComment]]
      simp
    · have hr : '#' ∈ rest := by
        rcases List.mem_cons.mp h with he | hr
        · exact absurd he.symm hc
        · exact hr
      rw [show stripComment (c :: rest) = c :: stripComment rest from by simp [stripComment, hc]]
      simp only [List.cons_append, List.length_cons, List.drop_succ_cons]
      exact congrArg (fun t => c :: t) (ih hr)

/-- C8: normalization is total and exact: everything from the first '#'
on is removed (the kept prefix has no '#'; without '#' the line is
unchanged); then only leading and trailing runs of the ASCII space are
removed (the remainder neither starts nor ends with a space, and the
removed pieces consist of spaces only, so tabs survive); the line is
kept for classification exactly when the result is non-empty. -/
theorem normalize_line (l : S) :
    ('#' ∉ stripComment l) ∧
    ('#' ∈ l → l = stripComment l ++ '#' :: l.drop ((stripComment l).length + 1)) ∧
    ('#' ∉ l → stripComment l = l) ∧
    (∃ a b, (∀ c ∈ a, c = ' ') ∧ (∀ c ∈ b, c = ' ') ∧
      stripComment l = a ++ cleanLine l ++ b) ∧
    (cleanLine l).head? ≠ some ' ' ∧
    (cleanLine l).getLast? ≠ some ' ' ∧
    cleanAndFilter [l] = (if cleanLine l = [] then [] else [cleanLine l]) := by
  refine ⟨?_, fun h => stripComment_decomp h, fun h => stripComment_eq_self h, ?_, ?_, ?_, ?_⟩
  · intro hm
    have := List.mem_takeWhile_imp hm
    simp at this
  · exact trimWs_decomp (stripComment l)
  · exact trimWs_head_not_space (stripComment l)
  · exact trimWs_getLast_not_space (stripComment l)
  · rw [cleanAndFilter_cons]
    by_cases h : cleanLine l = []
    · rw [if_pos h, if_pos h]
      rfl
    · rw [if_neg h, if_neg h]
      rfl

/-- Witness for C8 at the spec's comment-stripping example line. -/
theorem normalize_line_witness :
    ('#' ∉ stripComment (("  dt = 0.1 # timestep").toList)) ∧
    ('#' ∈ (("  dt = 0.1 # timestep").toList) →
      (("  dt = 0.1 # timestep").toList) =
        stripComment (("  dt = 0.1 # timestep").toList) ++
          '#' :: (("  dt = 0.1 # timestep").toList).drop
            ((stripComment (("  dt = 0.1 # timestep").toList)).length + 1)) ∧
    ('#' ∉ (("  dt = 0.1 # timestep").toList) →
      stripComment (("  dt = 0.1 # timestep").toList) = (("  dt = 0.1 # timestep").toList)) ∧
    (∃ a b, (∀ c ∈ a, c = ' ') ∧ (∀ c ∈ b, c = ' ') ∧
      stripComment (("  dt = 0.1 # timestep").toList) =
        a ++ cleanLine (("  dt = 0.1 # timestep").toList) ++ b) ∧
    (cleanLine (("  dt = 0.1 # timestep").toList)).head? ≠ some ' ' ∧
    (cleanLine (("  dt = 0.1 # timestep").toList)).getLast? ≠ some ' ' ∧
    cleanAndFilter [(("  dt = 0.1 # timestep").toList)] =
      (if cleanLine (("  dt = 0.1 # timestep").toList) = [] then []
       else [cleanLine (("  dt = 0.1 # timestep").toList)]) :=
  normalize_line (("  dt = 0.1 # timestep").toList)

/- ### C7: section projection -/

theorem sortedKeys_pairwise {m : Store} (h : sortedKeys m = true) :
    List.Pairwise (fun a b : S × S => ltS a.1 b.1 = true) m := by
  induction m with
  | nil => exact List.Pairwise.nil
  | cons e r ih =>
    exact List.Pairwise.cons (sortedKeys_head_lt h) (ih (sortedKeys_tail h))

theorem foldl_insert_sorted :
    ∀ (L : List (S × S)) (acc : Store),
    List.Pairwise (fun a b : S × S => ltS a.1 b.1 = true) (acc ++ L) →
    List.foldl (fun r e => insertStore r e.1 e.2) acc L = acc ++ L := by
  intro L
  induction L with
  | nil =>
    intro acc _
    simp
  | cons e L ih =>
    intro acc hp
    have hlt : ∀ f ∈ acc, ltS f.1 e.1 = true := by
      intro f hf
      exact (List.pairwise_append.mp hp).2.2 f hf e (by simp)
    have hins : insertStore acc e.1 e.2 = acc ++ [e] := insertStore_append e.2 hlt
    simp only [List.foldl_cons]
    rw [hins, ih (acc ++ [e]) (by rw [List.append_assoc]; exact hp)]
    simp

theorem ltS_slash_bare (sec : S) {k1 k2 : S}
    (h : ltS (sec ++ '/' :: k1) (sec ++ '/' :: k2) = true) : ltS k1 k2 = true := by
  have e1 : sec ++ '/' :: k1 = (sec ++ ['/']) ++ k1 := by simp
  have e2 : sec ++ '/' :: k2 = (sec ++ ['/']) ++ k2 := by simp
  rw [e1, e2, ltS_append_cancel] at h
  exact h

theorem foldl_guard_filter (sec : S) :
    ∀ (m : Store) (acc : Store),
    m.foldl (fun r e => if sectOf e.1 == sec then insertStore r (keyOf e.1) e.2 else r) acc =
    ((m.filter (fun e => sectOf e.1 == sec)).map (fun e => (keyOf e.1, e.2))).foldl
      (fun r e => insertStore r e.1 e.2) acc := by
  intro m
  induction m with
  | nil =>
    intro acc
    rfl
  | cons e m ih =>
    intro acc
    by_cases h : (sectOf e.1 == sec) = true
    · simp only [List.foldl_cons, List.filter_cons, h, if_true, List.map_cons]
      rw [ih]
    · have h2 : (sectOf e.1 == sec) = false := by
        cases hx : (sectOf e.1 == sec)
        · rfl
        · exact absurd hx h
      simp only [List.foldl_cons, List.filter_cons, h2, Bool.false_eq_true, if_false]
      rw [ih]

/-- C7: getSectionMap returns exactly the entries whose composite key
decomposes at the first '/' into the requested section, re-keyed by the
bare key in store order, getSection agrees with it entry for entry, and
an unmatched section yields the empty mapping with no error. -/
theorem getSection_proj (m : Store) (sec : S) (hs : sortedKeys m = true)
    (hk : ∀ e ∈ m, (e.1).contains '/' = true) :
    getSectionMap m sec =
      (m.filter (fun e => sectOf e.1 == sec)).map (fun e => (keyOf e.1, e.2)) ∧
    getSection m sec = getSectionMap m sec ∧
    ((∀ e ∈ m, ¬ sectOf e.1 = sec) → getSectionMap m sec = [] ∧ getSection m sec = []) := by
  have hpm := sortedKeys_pairwise hs
  have hpfil : List.Pairwise (fun a b : S × S => ltS a.1 b.1 = true)
      (m.filter (fun e => sectOf e.1 == sec)) :=
    List.Pairwise.sublist (List.filter_sublist m) hpm
  have hpmap : List.Pairwise (fun a b : S × S => ltS a.1 b.1 = true)
      ((m.filter (fun e => sectOf e.1 == sec)).map (fun e => (keyOf e.1, e.2))) := by
    rw [List.pairwise_map]
    apply List.Pairwise.imp_of_mem ?_ hpfil
    intro a b ha hb hab
    have hsa : sectOf a.1 = sec := by
      have := (List.mem_filter.mp ha).2
      simpa using this
    have hsb : sectOf b.1 = sec := by
      have := (List.mem_filter.mp hb).2
      simpa using this
    have hra := (splitSlash_recompose (hk a (List.mem_filter.mp ha).1)).1
    have hrb := (splitSlash_recompose (hk b (List.mem_filter.mp hb).1)).1
    rw [hsa] at hra
    rw [hsb] at hrb
    apply ltS_slash_bare sec
    rw [← hra, ← hrb]
    exact hab
  have hmain : getSectionMap m sec =
      (m.filter (fun e => sectOf e.1 == sec)).map (fun e => (keyOf e.1, e.2)) := by
    unfold getSectionMap
    rw [foldl_guard_filter sec m []]
    exact foldl_insert_sorted _ [] (by simpa using hpmap)
  have hsame : getSection m sec = getSectionMap m sec := by
    unfold getSection getSectionMap setStr
    rfl
  refine ⟨hmain, hsame, ?_⟩
  intro hno
  have hfil : m.filter (fun e => sectOf e.1 == sec) = [] := by
    apply List.filter_eq_nil_iff.mpr
    intro e he
    simpa using hno e he
  constructor
  · rw [hmain, hfil]
    rfl
  · rw [hsame, hmain, hfil]
    rfl

/-- Witness for C7 at the spec's projection example: section "time" of
{out/p, time/dt, time/steps} is {dt, steps}, excluding out/p. -/
theorem getSection_proj_witness :
    getSectionMap [((("out/p").toList), (("3").toList)), ((("time/dt").toList), (("0.1").toList)),
        ((("time/steps").toList), (("10").toList))] (("time").toList) =
      [((("dt").toList), (("0.1").toList)), ((("steps").toList), (("10").toList))] ∧
    getSection [((("out/p").toList), (("3").toList)), ((("time/dt").toList), (("0.1").toList)),
        ((("time/steps").toList), (("10").toList))] (("time").toList) =
      getSectionMap [((("out/p").toList), (("3").toList)), ((("time/dt").toList), (("0.1").toList)),
        ((("time/steps").toList), (("10").toList))] (("time").toList) ∧
    getSectionMap [((("out/p").toList), (("3").toList)), ((("time/dt").toList), (("0.1").toList)),
        ((("time/steps").toList), (("10").toList))] (("nosuch").toList) = [] :=
  ⟨((getSection_proj [((("out/p").toList), (("3").toList)), ((("time/dt").toList), (("0.1").toList)),
        ((("time/steps").toList), (("10").toList))] (("time").toList)
      (by decide) (by decide)).1).trans (by rfl),
   (getSection_proj [((("out/p").toList), (("3").toList)), ((("time/dt").toList), (("0.1").toList)),
        ((("time/steps").toList), (("10").toList))] (("time").toList)
      (by decide) (by decide)).2.1,
   ((getSection_proj [((("out/p").toList), (("3").toList)), ((("time/dt").toList), (("0.1").toList)),
        ((("time/steps").toList), (("10").toList))] (("nosuch").toList)
      (by decide) (by decide)).2.2 (by decide)).1⟩

/- ### C2: grouping and headers in save -/

theorem ltS_cons_elim {x y : S} {p q : Char} (h : ltS (p :: x) (q :: y) = true) :
    p < q ∨ (p = q ∧ ltS x y = true) := by
  simp only [ltS] at h
  by_cases h1 : p < q
  · exact Or.inl h1
  · rw [if_neg h1] at h
    by_cases h2 : p = q
    · rw [if_pos h2] at h
      exact Or.inr ⟨h2, h⟩
    · rw [if_neg h2] at h
      exact absurd h (by simp)

theorem ltS_intro_lt {x y : S} {p q : Char} (h : p < q) : ltS (p :: x) (q :: y) = true := by
  simp [ltS, h]

theorem ltS_intro_eq {x y : S} (p : Char) (h : ltS x y = true) :
    ltS (p :: x) (p :: y) = true := by
  simp [ltS, h]

theorem secLe_of_ltS : ∀ {s : S} (t : S) {a b : S}, '/' ∉ s → '/' ∉ t →
    ltS (s ++ '/' :: a) (t ++ '/' :: b) = true → secLe s t = true := by
  intro s
  induction s with
  | nil =>
    intro t a b _ ht h
    cases t with
    | nil => simp [secLe]
    | cons d t2 =>
      have hd : ('/' : Char) ≠ d := fun he => ht (by rw [← he]; simp)
      rcases ltS_cons_elim h with hlt | ⟨heq, _⟩
      · unfold secLe
        rw [show ltS ((([] : S)) ++ ['/']) ((d :: t2) ++ ['/']) = true from ltS_intro_lt hlt]
        simp
      · exact absurd heq hd
  | cons c s2 ih =>
    intro t a b hs ht h
    have hc : c ≠ '/' := fun he => hs (by simp [he])
    have hs2 : '/' ∉ s2 := fun hm => hs (by simp [hm])
    cases t with
    | nil =>
      rcases ltS_cons_elim h with hlt | ⟨heq, _⟩
      · unfold secLe
        rw [show ltS ((c :: s2) ++ ['/']) (([] : S) ++ ['/']) = true from ltS_intro_lt hlt]
        simp
      · exact absurd heq hc
    | cons d t2 =>
      have ht2 : '/' ∉ t2 := fun hm => ht (by simp [hm])
      rcases ltS_cons_elim h with hlt | ⟨heq, hrec⟩
      · unfold secLe
        rw [show ltS ((c :: s2) ++ ['/']) ((d :: t2) ++ ['/']) = true from ltS_intro_lt hlt]
        simp
      · subst heq
        have hst := ih t2 hs2 ht2 hrec
        unfold secLe at hst ⊢
        by_cases he : s2 = t2
        · subst he
          simp
        · have hlt2 : ltS (s2 ++ ['/']) (t2 ++ ['/']) = true := by
            rcases (Bool.or_eq_true _ _).mp hst with h1 | h1
            · exact absurd (by simpa using h1) he
            · exact h1
          rw [show ltS ((c :: s2) ++ ['/']) ((c :: t2) ++ ['/']) = true from
            ltS_intro_eq c hlt2]
          simp

theorem secLe_trans {a b c : S} (h1 : secLe a b = true) (h2 : secLe b c = true) :
    secLe a c = true := by
  unfold secLe at h1 h2 ⊢
  rcases (Bool.or_eq_true _ _).mp h1 with hab | hab
  · have he : a = b := by simpa using hab
    subst he
    exact h2
  · rcases (Bool.or_eq_true _ _).mp h2 with hbc | hbc
    · have he : b = c := by simpa using hbc
      subst he
      rw [hab]
      simp
    · rw [ltS_trans hab hbc]
      simp

theorem chainLe_tail : ∀ {a : S} {r : List S}, chainLe (a :: r) = true → chainLe r = true := by
  intro a r h
  cases r with
  | nil => rfl
  | cons b r2 =>
    simp only [chainLe, Bool.and_eq_true] at h
    exact h.2

theorem chainLe_cons_le {a b : S} {r : List S} (h : chainLe (a :: b :: r) = true) :
    secLe a b = true := by
  simp only [chainLe, Bool.and_eq_true] at h
  exact h.1

theorem chainLe_head_all : ∀ {r : List S} {a : S}, chainLe (a :: r) = true →
    ∀ w ∈ r, secLe a w = true := by
  intro r
  induction r with
  | nil =>
    intro a _ w hw
    simp at hw
  | cons b r2 ih =>
    intro a h w hw
    have hab := chainLe_cons_le h
    rcases List.mem_cons.mp hw with he | hm
    · subst he
      exact hab
    · exact secLe_trans hab (ih (chainLe_tail h) w hm)

theorem sects_chainLe : ∀ {m : Store}, sortedKeys m = true →
    (∀ e ∈ m, (e.1).contains '/' = true) → chainLe (sectsOf m) = true := by
  intro m
  induction m with
  | nil =>
    intro _ _
    rfl
  | cons e m ih =>
    intro hs hk
    cases m with
    | nil => rfl
    | cons f m2 =>
      have h1 : ltS e.1 f.1 = true := by
        simp only [sortedKeys, Bool.and_eq_true] at hs
        exact hs.1
      obtain ⟨hre, hnse⟩ := splitSlash_recompose (hk e (by simp))
      obtain ⟨hrf, hnsf⟩ := splitSlash_recompose (hk f (by simp))
      have hsec : secLe (sectOf e.1) (sectOf f.1) = true := by
        apply secLe_of_ltS (sectOf f.1) hnse hnsf
        rw [← hre, ← hrf]
        exact h1
      show (secLe (sectOf e.1) (sectOf f.1) && chainLe (sectsOf (f :: m2))) = true
      rw [hsec, ih (sortedKeys_tail hs) (fun g hg => hk g (by simp [hg]))]
      rfl

theorem headersOf_saveGo : ∀ (m : Store) (c : S),
    headersOf (saveGo c m) = collapse c (sectsOf m) := by
  intro m
  induction m with
  | nil =>
    intro c
    rfl
  | cons e m ih =>
    intro c
    by_cases h : sectOf e.1 = c
    · rw [show saveGo c (e :: m) = Ev.kv (keyOf e.1) e.2 :: saveGo c m from by
        simp [saveGo, h]]
      rw [show collapse c (sectsOf (e :: m)) = collapse c (sectsOf m) from by
        simp [sectsOf, collapse, h]]
      simpa [headersOf, List.filterMap_cons] using ih c
    · rw [show saveGo c (e :: m) =
        Ev.blank :: Ev.header (sectOf e.1) :: Ev.kv (keyOf e.1) e.2 :: saveGo (sectOf e.1) m from by
        simp [saveGo, h]]
      rw [show collapse c (sectsOf (e :: m)) =
        sectOf e.1 :: collapse (sectOf e.1) (sectsOf m) from by
        simp [sectsOf, collapse, h]]
      simpa [headersOf, List.filterMap_cons] using ih (sectOf e.1)

theorem collapse_count_zero (s : S) : ∀ (σ : List S) (c : S),
    s ∉ σ → countS s (collapse c σ) = 0 := by
  intro σ
  induction σ with
  | nil =>
    intro c _
    rfl
  | cons t σ ih =>
    intro c hn
    have hts : t ≠ s := fun he => hn (by simp [he])
    have hns : s ∉ σ := fun hm => hn (by simp [hm])
    by_cases h : t = c
    · rw [show collapse c (t :: σ) = collapse c σ from by simp [collapse, h]]
      exact ih c hns
    · rw [show collapse c (t :: σ) = t :: collapse t σ from by simp [collapse, h]]
      show (if t = s then 1 else 0) + countS s (collapse t σ) = 0
      rw [if_neg hts, ih t hns]

theorem collapse_count_run (s : S) : ∀ (σ : List S),
    chainLe (s :: σ) = true → countS s (collapse s σ) = 0 := by
  intro σ
  induction σ with
  | nil =>
    intro _
    rfl
  | cons u σ ih =>
    intro h
    have hsu : secLe s u = true := chainLe_cons_le h
    by_cases he : u = s
    · subst he
      rw [show collapse u (u :: σ) = collapse u σ from by simp [collapse]]
      exact ih (chainLe_tail h)
    · rw [show collapse s (u :: σ) = u :: collapse u σ from by simp [collapse, he]]
      show (if u = s then 1 else 0) + countS s (collapse u σ) = 0
      rw [if_neg he]
      have hlt : ltS (s ++ ['/']) (u ++ ['/']) = true := by
        rcases (Bool.or_eq_true _ _).mp hsu with h1 | h1
        · exact absurd (by simpa using h1 : s = u).symm he
        · exact h1
      have hns : s ∉ σ := by
        intro hm
        have hw := chainLe_head_all (chainLe_tail h) s hm
        rcases (Bool.or_eq_true _ _).mp hw with h1 | h1
        · exact he (by simpa using h1)
        · have hc := ltS_trans hlt h1
          rw [ltS_irrefl] at hc
          exact Bool.false_ne_true hc
      rw [collapse_count_zero s σ u hns]

theorem collapse_count_one (s : S) : ∀ (σ : List S) (c : S),
    s ∈ σ → c ≠ s → chainLe σ = true → countS s (collapse c σ) = 1 := by
  intro σ
  induction σ with
  | nil =>
    intro c hm
    simp at hm
  | cons t σ ih =>
    intro c hm hcs hch
    by_cases htc : t = c
    · subst htc
      rw [show collapse t (t :: σ) = collapse t σ from by simp [collapse]]
      have hms : s ∈ σ := by
        rcases List.mem_cons.mp hm with he | h2
        · exact absurd he.symm hcs
        · exact h2
      exact ih t hms hcs (chainLe_tail hch)
    · rw [show collapse c (t :: σ) = t :: collapse t σ from by simp [collapse, htc]]
      show (if t = s then 1 else 0) + countS s (collapse t σ) = 1
      by_cases hts : t = s
      · rw [if_pos hts]
        subst hts
        rw [collapse_count_run t σ hch]
      · rw [if_neg hts]
        have hms : s ∈ σ := by
          rcases List.mem_cons.mp hm with he | h2
          · exact absurd he.symm hts
          · exact h2
        rw [ih t hms hts (chainLe_tail hch)]

theorem specReplay_saveGo : ∀ (m : Store) (c : S),
    (∀ e ∈ m, (e.1).contains '/' = true) →
    specReplayEntries c (saveGo c m) = m := by
  intro m
  induction m with
  | nil =>
    intro c _
    rfl
  | cons e m ih =>
    intro c hk
    have hre := (splitSlash_recompose (hk e (by simp))).1
    by_cases h : sectOf e.1 = c
    · rw [show saveGo c (e :: m) = Ev.kv (keyOf e.1) e.2 :: saveGo c m from by
        simp [saveGo, h]]
      show (c ++ '/' :: keyOf e.1, e.2) :: specReplayEntries c (saveGo c m) = e :: m
      rw [ih c (fun f hf => hk f (by simp [hf])), ← h, ← hre]
    · rw [show saveGo c (e :: m) =
        Ev.blank :: Ev.header (sectOf e.1) :: Ev.kv (keyOf e.1) e.2 :: saveGo (sectOf e.1) m from by
        simp [saveGo, h]]
      show (sectOf e.1 ++ '/' :: keyOf e.1, e.2) ::
        specReplayEntries (sectOf e.1) (saveGo (sectOf e.1) m) = e :: m
      rw [ih (sectOf e.1) (fun f hf => hk f (by simp [hf])), ← hre]

/-- C2 (amended): for a sorted store of proper composite keys (every
key contains '/') with non-empty section names, save emits the entries
in store (ascending composite-key) order grouped under their sections
-- replaying the emitted lines reconstructs the store exactly -- and
each present section receives exactly one '[section]' header, sections
absent from the store none (the cursor starts as the empty string, so
an empty section name or a slash-less key breaks this, as the
counterexample shows). -/
theorem save_grouped (m : Store) (hs : sortedKeys m = true)
    (hk : ∀ e ∈ m, (e.1).contains '/' = true)
    (hn : ∀ e ∈ m, sectOf e.1 ≠ []) :
    specReplayEntries [] (saveEvents m) = m ∧
    (∀ s, countS s (headersOf (saveEvents m)) = if s ∈ sectsOf m then 1 else 0) := by
  constructor
  · exact specReplay_saveGo m [] hk
  · intro s
    rw [show saveEvents m = saveGo [] m from rfl, headersOf_saveGo m []]
    by_cases hm : s ∈ sectsOf m
    · rw [if_pos hm]
      have hsne : s ≠ [] := by
        obtain ⟨e, he, hse⟩ := List.mem_map.mp hm
        rw [← hse]
        exact hn e he
      exact collapse_count_one s (sectsOf m) [] hm (fun he => hsne he.symm)
        (sects_chainLe hs hk)
    · rw [if_neg hm]
      exact collapse_count_zero s (sectsOf m) [] hm

/-- Witness for the amended C2 at the spec's grouping example
{a/x:1, a/z:3, b/y:2}: replay reconstructs the store and each of the
sections "a" and "b" gets exactly one header. -/
theorem save_grouped_witness :
    specReplayEntries [] (saveEvents [((("a/x").toList), (("1").toList)),
      ((("a/z").toList), (("3").toList)), ((("b/y").toList), (("2").toList))]) =
      [((("a/x").toList), (("1").toList)), ((("a/z").toList), (("3").toList)),
        ((("b/y").toList), (("2").toList))] ∧
    countS (("a").toList) (headersOf (saveEvents [((("a/x").toList), (("1").toList)),
      ((("a/z").toList), (("3").toList)), ((("b/y").toList), (("2").toList))])) = 1 ∧
    countS (("b").toList) (headersOf (saveEvents [((("a/x").toList), (("1").toList)),
      ((("a/z").toList), (("3").toList)), ((("b/y").toList), (("2").toList))])) = 1 :=
  ⟨(save_grouped [((("a/x").toList), (("1").toList)), ((("a/z").toList), (("3").toList)),
      ((("b/y").toList), (("2").toList))] (by decide) (by decide) (by decide)).1,
   ((save_grouped [((("a/x").toList), (("1").toList)), ((("a/z").toList), (("3").toList)),
      ((("b/y").toList), (("2").toList))] (by decide) (by decide) (by decide)).2
        (("a").toList)).trans (by decide),
   ((save_grouped [((("a/x").toList), (("1").toList)), ((("a/z").toList), (("3").toList)),
      ((("b/y").toList), (("2").toList))] (by decide) (by decide) (by decide)).2
        (("b").toList)).trans (by decide)⟩

/-- C2 counterexample: the store {"/k": "v"} (empty section, first
entry) is emitted with no header at all although its section occurs,
and the sorted store {"b": "1", "b!y": "2", "b/x": "3"} has the two
entries of section "b" separated by section "b!y", so "b" receives two
headers: "exactly one header per section group" fails as stated. -/
theorem save_grouped_cex :
    sortedKeys [((("/k").toList), (("v").toList))] = true ∧
    ((("/k").toList) : S).contains '/' = true ∧
    sectsOf [((("/k").toList), (("v").toList))] = [[]] ∧
    headersOf (saveEvents [((("/k").toList), (("v").toList))]) = [] ∧
    countS ([] : S) (headersOf (saveEvents [((("/k").toList), (("v").toList))])) = 0 ∧
    sortedKeys [((("b").toList), (("1").toList)), ((("b!y").toList), (("2").toList)),
      ((("b/x").toList), (("3").toList))] = true ∧
    sectsOf [((("b").toList), (("1").toList)), ((("b!y").toList), (("2").toList)),
      ((("b/x").toList), (("3").toList))] =
      [(("b").toList), (("b!y").toList), (("b").toList)] ∧
    countS (("b").toList) (headersOf (saveEvents [((("b").toList), (("1").toList)),
      ((("b!y").toList), (("2").toList)), ((("b/x").toList), (("3").toList))])) = 2 :=
  ⟨by decide, by decide, by rfl, by rfl, by rfl, by decide, by rfl, by rfl⟩

/-- Witness for C10: the stored value "hello world" is read back as
just "hello". -/
theorem getString_first_token_witness :
    getString [((("sec/greeting").toList), (("hello world").toList))]
        (("sec/greeting").toList) = Except.ok (some (("hello").toList)) ∧
    (("hello").toList : S) ≠ (("hello world").toList) := by
  have h := getString_first_token
    [((("sec/greeting").toList), (("hello world").toList))]
    (("sec/greeting").toList) (("hello world").toList)
    (by decide) (by decide) (by decide)
  constructor
  · rw [h.1]
    rfl
  · intro he
    exact h.2 (by rw [show ((("hello world").toList).takeWhile (fun c => !(isStreamWs c))) =
      (("hello").toList) from rfl, he])

end Parameters
